import Mathlib

/-!
Verification of the RISE build scripts (`rise-reveal/script.py` and
`classic/script.py`).  Text content is modelled as `List Char` (one `Char`
per byte of the file, with newline conventions made explicit), and the file
system state touched by each operation is modelled as a structure with one
field per path the scripts read or write.
-/

set_option maxHeartbeats 1000000
set_option maxRecDepth 4000
set_option linter.unusedVariables false

abbrev Text := List Char

/-- The line-boundary characters recognised by Python's `str.splitlines`. -/
def isLineBreak (c : Char) : Bool :=
  c = '\n' || c = '\r' || c = '\x0b' || c = '\x0c' || c = '\x1c' ||
  c = '\x1d' || c = '\x1e' || c = '\x85' || c = '\u2028' || c = '\u2029'

/-- Python's `str.splitlines(keepends=True)`: split a text into lines, each
line keeping its terminator; `"\r\n"` counts as a single terminator. -/
def pySplitlines : List Char → List (List Char)
  | [] => []
  | c :: t =>
    if c = '\r' then
      match t with
      | '\n' :: t' => ['\r', '\n'] :: pySplitlines t'
      | [] => [['\r']]
      | c' :: t' => ['\r'] :: pySplitlines (c' :: t')
    else if isLineBreak c then [c] :: pySplitlines t
    else
      match pySplitlines t with
      | [] => [[c]]
      | l :: ls => (c :: l) :: ls

/-- `len(text.splitlines())`: the number of lines of a text. -/
def lineCount (t : Text) : Nat := (pySplitlines t).length

/-- The number of line terminators in a text (`"\r\n"` counting once). -/
def breakCount : List Char → Nat
  | [] => 0
  | c :: t =>
    if c = '\r' then
      match t with
      | '\n' :: t' => 1 + breakCount t'
      | [] => 1
      | c' :: t' => 1 + breakCount (c' :: t')
    else if isLineBreak c then 1 + breakCount t
    else breakCount t

/-- Whether a text ends with a line terminator. -/
def endsWithBreak (t : List Char) : Bool :=
  match t.getLast? with
  | some c => isLineBreak c
  | none => false

/-- The universal-newline translation performed by `Path.read_text()`
(text mode with `newline=None`): `"\r\n"` and `"\r"` both become `"\n"`. -/
def univNewlines : List Char → List Char
  | [] => []
  | c :: t =>
    if c = '\r' then
      match t with
      | '\n' :: t' => '\n' :: univNewlines t'
      | [] => ['\n']
      | c' :: t' => '\n' :: univNewlines (c' :: t')
    else c :: univNewlines t

/-- `needle in haystack` on Python strings: some position of `t` starts
with `q`. -/
def containsTok (q : List Char) : List Char → Bool
  | [] => q.isEmpty
  | c :: t => q.isPrefixOf (c :: t) || containsTok q t

/-- `q` occurs in `t` starting at (0-based) position `b`. -/
def OccAt (q t : List Char) (b : Nat) : Prop := q.isPrefixOf (t.drop b) = true

/-- Python's `str.replace(p, r)`: replace every non-overlapping occurrence
of `p`, scanning left to right. -/
def pyReplace (p r : List Char) : List Char → List Char
  | [] => []
  | c :: t =>
    if p.isPrefixOf (c :: t) then r ++ pyReplace p r (t.drop (p.length - 1))
    else c :: pyReplace p r t
termination_by l => l.length
decreasing_by
  all_goals simp only [List.length_cons, List.length_drop]
  all_goals omega

/-- `'src$='`, the exact-match attribute selector token in `notes.js`. -/
def tokSrc : Text := "src$=".toList
/-- `'src*='`, the substring-match attribute selector replacement. -/
def repSrc : Text := "src*=".toList
/-- `'keyCode: 83'`, the numeric keybinding for `s` in `notes.js`. -/
def tokKeyCode : Text := "keyCode: 83".toList
/-- `'keyCode: 84'`, the replacement numeric keybinding for `t`. -/
def repKeyCode : Text := "keyCode: 84".toList
/-- `"key: 'S'"`, the letter-key constant in `notes.js`. -/
def tokKeyS : Text := "key: \x27S\x27".toList
/-- `"key: 'T'"`, the replacement letter-key constant. -/
def repKeyS : Text := "key: \x27T\x27".toList

/-- The three sequential `str.replace` calls of `patch_notes` on
`notes.js` (script.py lines 79-83). -/
def notesJsTransform (t : Text) : Text :=
  pyReplace tokKeyS repKeyS (pyReplace tokKeyCode repKeyCode (pyReplace tokSrc repSrc t))

/-- The write loop of `patch_reveal_css` (script.py lines 57-60): write each
line of the text, inserting `/*` right before the line numbered 11
(1-indexed by `enumerate(..., 1)`). -/
def commentLoop : Nat → List (List Char) → List Char
  | _, [] => []
  | i, l :: ls => (if i = 11 then '/' :: '*' :: l else l) ++ commentLoop (i + 1) ls

/-- The whole text transformation of `patch_reveal_css`. -/
def commentOutLine11 (t : Text) : Text :=
  commentLoop 1 (pySplitlines t)

/-- `'Layout selector'`, the marker phrase looked for in `notes.html`. -/
def layoutMarker : Text := "Layout selector".toList

/-- The five CSS lines injected by `patch_notes` into `notes.html`
(script.py lines 100-104). -/
def injectBlock : Text :=
  ("#speaker-controls>.speaker-controls-notes .inner_cell>.ctb_hideshow, \n" ++
   "#speaker-controls>.speaker-controls-notes .inner_cell>.input_area \x7b \n" ++
   "    display: none; \n" ++
   "\x7d\n" ++
   "\n").toList

/-- The `notes.html` transformation of `patch_notes` (script.py lines
97-105): copy line by line, writing the injected block before every line
that contains the marker phrase. -/
def notesHtmlTransform (t : Text) : Text :=
  ((pySplitlines t).map (fun l => if containsTok layoutMarker l then injectBlock ++ l else l)).flatten

/-- `'body {'`, the pattern of the `re.sub` in `patch_reveal_themes`. -/
def themePat : Text := "body \x7b".toList

/-- The multi-line replacement block of `patch_reveal_themes`
(script.py lines 131-135). -/
def themeRepl : Text :=
  ("body.notebook_app.rise-enabled \x7b\n" ++
   "    \x2f\x2a PATCHED by patch-reveal-themes.sh \x2a\x2f\n" ++
   "    background-attachment: fixed !important;").toList

/-- `re.sub(r'^body {', repl, text, flags=re.MULTILINE)`: the Boolean flag
records whether the current position is a line start (position 0 or right
after a `'\n'`), which is where `'^'` matches in multiline mode. -/
def reSubBody (repl : Text) : Bool → List Char → List Char
  | atStart, t =>
    if atStart && themePat.isPrefixOf t then
      repl ++ reSubBody repl false (t.drop themePat.length)
    else
      match t with
      | [] => []
      | c :: t' => c :: reSubBody repl (c == '\n') t'
termination_by _ l => l.length
decreasing_by
  · rename_i h
    rw [Bool.and_eq_true] at h
    have hlen := List.IsPrefix.length_le (List.isPrefixOf_iff_prefix.mp h.2)
    have h6 : themePat.length = 6 := rfl
    simp only [List.length_drop]
    omega
  · simp only [List.length_cons]; omega

/-- Number of line-start matches of `'body {'`, mirroring `reSubBody`. -/
def countLS : Bool → List Char → Nat
  | atStart, t =>
    if atStart && themePat.isPrefixOf t then
      1 + countLS false (t.drop themePat.length)
    else
      match t with
      | [] => 0
      | c :: t' => countLS (c == '\n') t'
termination_by _ l => l.length
decreasing_by
  · rename_i h
    rw [Bool.and_eq_true] at h
    have hlen := List.IsPrefix.length_le (List.isPrefixOf_iff_prefix.mp h.2)
    have h6 : themePat.length = 6 := rfl
    simp only [List.length_drop]
    omega
  · simp only [List.length_cons]; omega

/-- The text transformation of `patch_reveal_themes` on one theme file. -/
def revealThemesTransform (t : Text) : Text :=
  reSubBody themeRepl true t

/-- The first list in `ls` (if any) does not begin with `'\n'`. -/
def firstCharNotLF (ls : List (List Char)) : Prop :=
  match ls with
  | [] => True
  | l :: _ => l.head? ≠ some '\n'

/-- Well-formed output of `pySplitlines`: every line but the last ends in
exactly one terminator (with `"\r\n"` as a unit), line bodies are
break-free, a line ending in a lone `'\r'` is never followed by a line
beginning with `'\n'`, and a final unterminated line is break-free and
nonempty. -/
inductive LinesWF : List (List Char) → Prop
  | nil : LinesWF []
  | final (l : List Char) : l ≠ [] → (∀ c ∈ l, isLineBreak c = false) → LinesWF [l]
  | cons (b term : List Char) (ls : List (List Char)) :
      (∀ c ∈ b, isLineBreak c = false) →
      (term = ['\r', '\n'] ∨ ∃ c, isLineBreak c = true ∧ term = [c]) →
      (term = ['\r'] → firstCharNotLF ls) →
      LinesWF ls →
      LinesWF ((b ++ term) :: ls)

/-- The per-line effect of the `patch_reveal_css` write loop: the line
numbered 11 (counting from `i`) gains the two-character prefix. -/
def markFrom : Nat → List (List Char) → List (List Char)
  | _, [] => []
  | i, l :: ls => (if i = 11 then '/' :: '*' :: l else l) :: markFrom (i + 1) ls

/-- Whether the text has an occurrence of `'body {'` at a line start
(`atStart` tells whether the scan begins at a line start). -/
def hasLSOcc : Bool → List Char → Bool
  | _, [] => false
  | atStart, c :: t => (atStart && themePat.isPrefixOf (c :: t)) || hasLSOcc (c == '\n') t

/-- The line-start flag that a left-to-right scan holds after consuming
`A`, having started with `flag`. -/
def lastFlag (flag : Bool) : List Char → Bool
  | [] => flag
  | [a] => a == '\n'
  | _ :: a :: rest => lastFlag flag (a :: rest)

/-- `str.replace('_', '-')` applied to an operation name. -/
def hyphenate (s : String) : String := s.map (fun c => if c = '_' then '-' else c)

/-- The error message raised by `require_npm_install`
(both scripts, line 18). -/
def gateMessage (name : String) : String :=
  "You must run \x22npm install\x22 before running \x22npm run " ++ hyphenate name ++ "\x22"

/-- Result of calling an operation wrapped by `require_npm_install`: either
the wrapped body's result, or a raised `EnvironmentError` carrying the
message and the (untouched) file-system state at call time. -/
inductive GateResult (σ β : Type) where
  | raised (msg : String) (st : σ)
  | ok (res : β)
deriving DecidableEq

/-- `require_npm_install` (both scripts, lines 11-21): on every call,
compute the hyphenated operation name, test whether `node_modules` is a
directory in the current state, and either raise or run the wrapped body. -/
def require_npm_install {σ β : Type} (name : String) (node_modules_is_dir : σ → Bool)
    (function : σ → β) (st : σ) : GateResult σ β :=
  if node_modules_is_dir st then .ok (function st) else .raised (gateMessage name) st

namespace RiseReveal

/-- The file-system state read and written by `rise-reveal/script.py`:
`node_modules` and `export` directory existence, the patchable target files
with their backups, and the theme directory (filename/content pairs for the
`*.css` glob, with `.css.patched` backups kept separately since the glob
never matches them). `none` means the file does not exist. -/
structure RFS where
  node_modules : Bool
  export_dir : Bool
  reveal_css : Option Text
  reveal_css_up : Option Text
  notes_js : Option Text
  notes_js_bak : Option Text
  notes_html : Option Text
  notes_html_bak : Option Text
  themes : List (String × Text)
  themes_bak : List (String × Text)
  chalk_js : Option Text
  chalk_js_bak : Option Text
deriving DecidableEq

/-- `patch_reveal_css` (script.py lines 41-60), gate included.  The Boolean
is `true` when the run completes without raising; on a raise the state at
the raise point is returned. -/
def patch_reveal_css (fs : RFS) : RFS × Bool :=
  if !fs.node_modules then (fs, false) else
  match fs.reveal_css_up with
  | some up => ({fs with reveal_css := some (commentOutLine11 (univNewlines up))}, true)
  | none =>
    match fs.reveal_css with
    | none => (fs, false)
    | some tgt =>
      ({fs with reveal_css_up := some tgt,
                reveal_css := some (commentOutLine11 (univNewlines tgt))}, true)

/-- The `notes.js` half of `patch_notes` (script.py lines 70-86). -/
def patchNotesJs (fs : RFS) : RFS × Bool :=
  match fs.notes_js_bak with
  | some up => ({fs with notes_js := some (notesJsTransform (univNewlines up))}, true)
  | none =>
    match fs.notes_js with
    | none => (fs, false)
    | some tgt =>
      ({fs with notes_js_bak := some tgt,
                notes_js := some (notesJsTransform (univNewlines tgt))}, true)

/-- The `notes.html` half of `patch_notes` (script.py lines 88-105). -/
def patchNotesHtml (fs : RFS) : RFS × Bool :=
  match fs.notes_html_bak with
  | some up => ({fs with notes_html := some (notesHtmlTransform (univNewlines up))}, true)
  | none =>
    match fs.notes_html with
    | none => (fs, false)
    | some tgt =>
      ({fs with notes_html_bak := some tgt,
                notes_html := some (notesHtmlTransform (univNewlines tgt))}, true)

/-- `patch_notes` (script.py lines 63-105), gate included: patch `notes.js`,
then `notes.html`; a raise in the first half aborts before the second. -/
def patch_notes (fs : RFS) : RFS × Bool :=
  if !fs.node_modules then (fs, false) else
  let s1 := patchNotesJs fs
  if !s1.2 then (s1.1, false) else patchNotesHtml s1.1

/-- The loop body of `patch_reveal_themes` over the `*.css` glob matches:
for each theme file, create its backup if absent, then regenerate the
target from the backup's text. -/
def patchThemesList : List (String × Text) → List (String × Text) →
    List (String × Text) × List (String × Text)
  | [], baks => ([], baks)
  | (n, c) :: rest, baks =>
    let baks' := if (baks.lookup n).isSome then baks else baks ++ [(n, c)]
    let up := (baks'.lookup n).getD []
    let out := patchThemesList rest baks'
    ((n, revealThemesTransform (univNewlines up)) :: out.1, out.2)

/-- `patch_reveal_themes` (script.py lines 108-144), gate included. -/
def patch_reveal_themes (fs : RFS) : RFS × Bool :=
  if !fs.node_modules then (fs, false) else
  let out := patchThemesList fs.themes fs.themes_bak
  ({fs with themes := out.1, themes_bak := out.2}, true)

/-- Application of one unified-diff hunk to a text: the first occurrence of
the expected upstream region is replaced by the new region; if the expected
region is absent the application fails (the external tool exits non-zero). -/
def applyHunk (old new : Text) : Text → Option Text
  | [] => none
  | c :: t =>
    if old.isPrefixOf (c :: t) then some (new ++ (c :: t).drop old.length)
    else (applyHunk old new t).map (c :: ·)

/-- Modelled from the spec: the content of `chalkboard.js.patch` is not part
of `src/` (only the two `script.py` files are), and the spec describes the
step only as a "unified-diff apply" against a fixed patch file.  We model
the fixed patch as a single hunk whose expected upstream region is
`chalkOld`. -/
def chalkOld : Text := "var theChalkboard;".toList

/-- Modelled from the spec: the replacement region of the fixed patch;
distinct from `chalkOld`, as a patch that changes the file. -/
def chalkNew : Text := "var theChalkboardRISE;".toList

/-- `git apply --unsafe-paths --directory=export/reveal.js-chalkboard/
chalkboard.js.patch` as run by `patch_chalkboard`: apply the fixed diff to
the current target bytes, failing when it does not apply. -/
def gitApplyChalkboard (t : Text) : Option Text := applyHunk chalkOld chalkNew t

/-- `patch_chalkboard` (script.py lines 147-162), gate included: create the
backup if absent, then run `git apply` against the *current* target (the
backup is never read back). -/
def patch_chalkboard (fs : RFS) : RFS × Bool :=
  if !fs.node_modules then (fs, false) else
  let s1 : RFS × Bool :=
    match fs.chalk_js_bak with
    | some _ => (fs, true)
    | none =>
      match fs.chalk_js with
      | none => (fs, false)
      | some tgt => ({fs with chalk_js_bak := some tgt}, true)
  if !s1.2 then (s1.1, false) else
  match s1.1.chalk_js with
  | none => (s1.1, false)
  | some tgt =>
    match gitApplyChalkboard tgt with
    | none => (s1.1, false)
    | some t' => ({s1.1 with chalk_js := some t'}, true)

/-- A pre-patch state whose `chalkboard.js` holds the upstream region the
fixed patch expects, with `node_modules` installed and no backups yet. -/
def chalkCex : RFS :=
  { node_modules := true, export_dir := true,
    reveal_css := none, reveal_css_up := none, notes_js := none, notes_js_bak := none,
    notes_html := none, notes_html_bak := none, themes := [], themes_bak := [],
    chalk_js := some chalkOld, chalk_js_bak := none }

/-- A state whose `notes.js` backup holds CRLF-terminated content free of
all three replacement tokens, with `node_modules` installed. -/
def crlfCex : RFS :=
  { node_modules := true, export_dir := true,
    reveal_css := none, reveal_css_up := none,
    notes_js := some [], notes_js_bak := some "a\r\nb".toList,
    notes_html := some [], notes_html_bak := some [],
    themes := [], themes_bak := [], chalk_js := none, chalk_js_bak := none }

/-- The four patch operations of `rise-reveal/script.py`. -/
inductive PatchOp where
  | css | notes | themes | chalk
deriving DecidableEq

/-- Run one patch operation. -/
def applyPatchOp : PatchOp → RFS → RFS × Bool
  | .css, fs => patch_reveal_css fs
  | .notes, fs => patch_notes fs
  | .themes, fs => patch_reveal_themes fs
  | .chalk, fs => patch_chalkboard fs

/-- Run a sequence of patch-operation invocations; each invocation leaves
the state reached at its end (raising aborts that invocation but later
invocations still start from the state it left). -/
def runPatchSeq : List PatchOp → RFS → RFS
  | [], fs => fs
  | op :: ops, fs => runPatchSeq ops (applyPatchOp op fs).1

/-- `clean` of `rise-reveal/script.py` (lines 183-190): remove
`node_modules` and `export` when present; never raises. -/
def clean (fs : RFS) : RFS :=
  { node_modules := false, export_dir := false,
    reveal_css := none, reveal_css_up := none, notes_js := none, notes_js_bak := none,
    notes_html := none, notes_html_bak := none, themes := [], themes_bak := [],
    chalk_js := none, chalk_js_bak := none }

/-- The file-system state relevant to the `copy` operation: the two source
trees under `node_modules` and the `export` directory, each as a set of
relative file paths (`none` = directory absent). -/
structure CopyFS where
  node_modules : Bool
  reveal_src : Option (List String)
  chalk_src : Option (List String)
  export_dir : Option (List String)
deriving DecidableEq

/-- `copy` (script.py lines 24-38), gate included: remove a pre-existing
`export`, recreate it, then `copytree` the two sources into fresh
subdirectories; `copytree` raises when a source is missing. -/
def copy (fs : CopyFS) : Option CopyFS :=
  if !fs.node_modules then none else
  match fs.reveal_src, fs.chalk_src with
  | some rv, some ch =>
    let tree := rv.map (fun p => "reveal.js/" ++ p) ++ ch.map (fun p => "reveal.js-chalkboard/" ++ p)
    some { fs with export_dir := some tree }
  | _, _ => none

end RiseReveal

namespace Classic

/-- The file-system state touched by `classic/script.py`'s `clean`:
`node_modules`, the compiled `rise/static/main.css`, and the entries of
`rise/static/` matching the glob `reveal.js*` (each with whether it is a
directory, since `shutil.rmtree` raises on a non-directory). -/
structure CFS where
  node_modules : Bool
  main_css : Bool
  static_reveal : List (String × Bool)
deriving DecidableEq

/-- `clean` (classic/script.py lines 24-34): remove `node_modules` and
`main.css` when present, then `rmtree` every `reveal.js*` glob match;
raises (returns `none`) when a glob match is not a directory. -/
def clean (fs : CFS) : Option CFS :=
  if fs.static_reveal.all (fun e => e.2) then
    some { node_modules := false, main_css := false, static_reveal := [] }
  else none

/-- No generated artifact of the classic script exists. -/
def artifactsAbsent (fs : CFS) : Prop :=
  fs.node_modules = false ∧ fs.main_css = false ∧ fs.static_reveal = []

/-- The file-system state touched by `install_rise_reveal`: the
`../rise-reveal/export/reveal.js*` source trees, the `rise/static/reveal.js*`
destination trees already present, and the unrelated `rise/static` content. -/
structure InstFS where
  node_modules : Bool
  rr_export : List (String × List String)
  static_reveal_trees : List (String × List String)
  static_other : List String
deriving DecidableEq

/-- The `shutil.copytree` loop of `install_rise_reveal`: copy each source
tree to `rise/static/<name>`, raising `FileExistsError` (returning `none`)
when the destination already exists. -/
def copytreeFold : List (String × List String) → List (String × List String) →
    Option (List (String × List String))
  | [], st => some st
  | (n, tr) :: rest, st =>
    if (st.lookup n).isSome then none
    else copytreeFold rest (st ++ [(n, tr)])

/-- `install_rise_reveal` (classic/script.py lines 68-78), gate included. -/
def install_rise_reveal (fs : InstFS) : Option InstFS :=
  if !fs.node_modules then none else
  (copytreeFold fs.rr_export fs.static_reveal_trees).map
    (fun st => { fs with static_reveal_trees := st })

/-- A state with a stale pre-existing `rise/static/reveal.js` directory and a
fresh source tree, used to run `install_rise_reveal` on it. -/
def instCex : InstFS :=
  { node_modules := true, rr_export := [("reveal.js", ["new.txt"])],
    static_reveal_trees := [("reveal.js", ["old.txt"])], static_other := [] }

/-- `node_modules/.bin/watch`, the watcher binary path built by
`watch_less`. -/
def watchBin : String := "node_modules/.bin/watch"

/-- `watch_less` (classic/script.py lines 53-65), gate included, returning
the argument list handed to `subprocess.check_output` or the raised error.
Python's scoping rule makes `lessc` a local name of `watch_less` (it is
assigned in the Windows branch), so the read on that assignment's
right-hand side consults the function's local bindings - which at that
point hold only `watch` - and raises `UnboundLocalError` when the lookup
fails. -/
def watch_less (isWindows : Bool) (node_modules : Bool) : Except String (List String) :=
  if !node_modules then .error (gateMessage "watch_less") else
  let locals0 : List (String × String) := [("watch", watchBin)]
  if isWindows then
    match locals0.lookup "lessc" with
    | none => .error "UnboundLocalError: local variable \x27lessc\x27 referenced before assignment"
    | some _ => .ok [watchBin, "npm run less", "src/less"]
  else .ok [watchBin, "npm run less", "src/less"]

end Classic

/-- Per-file backup invariant relative to the pre-patch state: either the
backup does not exist yet and the target still holds its original content,
or the original target existed and the backup holds exactly it. -/
def fileInv (orig bak tgt : Option Text) : Prop :=
  (bak = none ∧ tgt = orig) ∨ (∃ c, orig = some c ∧ bak = some c)

/-- All backups of the rise-reveal script hold the corresponding original
pre-patch content (state `fs` reached from pre-patch state `fs0`). -/
def backupInvariant (fs0 fs : RiseReveal.RFS) : Prop :=
  fileInv fs0.reveal_css fs.reveal_css_up fs.reveal_css ∧
  fileInv fs0.notes_js fs.notes_js_bak fs.notes_js ∧
  fileInv fs0.notes_html fs.notes_html_bak fs.notes_html ∧
  fileInv fs0.chalk_js fs.chalk_js_bak fs.chalk_js ∧
  (∀ n : String,
    (fs.themes_bak.lookup n = none ∧ fs.themes.lookup n = fs0.themes.lookup n) ∨
    (∃ c, fs0.themes.lookup n = some c ∧ fs.themes_bak.lookup n = some c))

/-- No backup file exists yet (pre-patch tree). -/
def pristineBaks (fs : RiseReveal.RFS) : Prop :=
  fs.reveal_css_up = none ∧ fs.notes_js_bak = none ∧ fs.notes_html_bak = none ∧
  fs.chalk_js_bak = none ∧ fs.themes_bak = []

/-! ## Basic lemmas about `containsTok` and `List.isPrefixOf` -/

theorem isPrefixOf_append_self (q t : List Char) : q.isPrefixOf (q ++ t) = true := by
  exact List.isPrefixOf_iff_prefix.mpr (List.prefix_append q t)

theorem isPrefixOf_append_left {q A : List Char} (X : List Char)
    (h : q.isPrefixOf A = true) : q.isPrefixOf (A ++ X) = true := by
  exact List.isPrefixOf_iff_prefix.mpr
    ((List.isPrefixOf_iff_prefix.mp h).trans (List.prefix_append A X))

theorem containsTok_of_isPrefixOf {q t : List Char} (h : q.isPrefixOf t = true) :
    containsTok q t = true := by
  cases t with
  | nil =>
    cases q with
    | nil => rfl
    | cons c q => simp [List.isPrefixOf] at h
  | cons c t => simp [containsTok, h]

theorem containsTok_cons {q t : List Char} (c : Char) (h : containsTok q t = true) :
    containsTok q (c :: t) = true := by
  simp [containsTok, h]

theorem containsTok_append_right {q t : List Char} (A : List Char)
    (h : containsTok q t = true) : containsTok q (A ++ t) = true := by
  induction A with
  | nil => exact h
  | cons a A ih => exact containsTok_cons a ih

/-! ## Association-list lookup helpers -/

theorem lookup_append {α : Type} (l₁ l₂ : List (String × α)) (m : String) :
    (l₁ ++ l₂).lookup m =
      match l₁.lookup m with
      | some v => some v
      | none => l₂.lookup m := by
  induction l₁ with
  | nil => simp [List.lookup]
  | cons a l ih =>
    obtain ⟨k, v⟩ := a
    by_cases h : m == k
    · simp [List.lookup, h]
    · simp only [List.cons_append, List.lookup, h]
      exact ih

theorem mem_fst_of_lookup_isSome {α : Type} {l : List (String × α)} {m : String}
    (h : (l.lookup m).isSome = true) : m ∈ l.map Prod.fst := by
  induction l with
  | nil => simp [List.lookup] at h
  | cons a l ih =>
    obtain ⟨k, v⟩ := a
    by_cases hk : m == k
    · simp [beq_iff_eq.mp hk]
    · simp only [List.lookup, hk] at h
      simp [ih h]

theorem lookup_self {α : Type} (n : String) (v : α) (l : List (String × α)) :
    ((n, v) :: l).lookup n = some v := by
  simp [List.lookup]

/-- The `copytree` loop raises as soon as a source name collides with an
already-present destination name. -/
theorem copytreeFold_none : ∀ (src st : List (String × List String)) (n : String),
    (src.lookup n).isSome = true → (st.lookup n).isSome = true →
    Classic.copytreeFold src st = none := by
  intro src
  induction src with
  | nil =>
    intro st n h _
    simp [List.lookup] at h
  | cons a rest ih =>
    obtain ⟨k, tr⟩ := a
    intro st n hsrc hst
    rw [Classic.copytreeFold]
    by_cases hk : (st.lookup k).isSome = true
    · rw [hk]
      rfl
    · have hkf : (st.lookup k).isSome = false := by
        cases hb : (st.lookup k).isSome
        · rfl
        · exact absurd hb hk
      rw [hkf]
      simp only [Bool.false_eq_true, if_false]
      have hnk : (n == k) = false := by
        cases hb : n == k
        · rfl
        · exact absurd (beq_iff_eq.mp hb ▸ hst) hk
      have hrest : (rest.lookup n).isSome = true := by
        simp only [List.lookup, hnk] at hsrc
        exact hsrc
      apply ih _ n hrest
      rw [lookup_append, ]
      rcases hlk : st.lookup n with _ | v
      · rw [hlk] at hst
        simp at hst
      · rfl

/-- The `copytree` loop succeeds and appends the sources exactly when no
source name collides with an existing destination or an earlier source. -/
theorem copytreeFold_ok : ∀ (src st : List (String × List String)),
    (∀ n, (src.lookup n).isSome = true → (st.lookup n).isSome = false) →
    (src.map Prod.fst).Nodup →
    Classic.copytreeFold src st = some (st ++ src) := by
  intro src
  induction src with
  | nil =>
    intro st h hn
    simp [Classic.copytreeFold]
  | cons a rest ih =>
    obtain ⟨n, tr⟩ := a
    intro st h hn
    have hstn : (st.lookup n).isSome = false := h n (by rw [lookup_self]; rfl)
    rw [Classic.copytreeFold, hstn]
    simp only [Bool.false_eq_true, if_false]
    have hsplit : st ++ (n, tr) :: rest = (st ++ [(n, tr)]) ++ rest := by simp
    rw [hsplit]
    have hnodup := List.nodup_cons.mp hn
    apply ih
    · intro m hm
      have hmem : m ∈ rest.map Prod.fst := mem_fst_of_lookup_isSome hm
      have hmf : (m == n) = false := by
        cases hb : m == n
        · rfl
        · exact absurd (beq_iff_eq.mp hb ▸ hmem) hnodup.1
      have hmsrc : ((((n, tr) :: rest)).lookup m).isSome = true := by
        simp only [List.lookup, hmf]
        exact hm
      have hstm := h m hmsrc
      rw [lookup_append]
      rcases hlk : st.lookup m with _ | v
      · simp only [List.lookup, hmf]
        rfl
      · rw [hlk] at hstm
        simp at hstm
    · exact hnodup.2

/-! ## Claim C5: the dependency gate -/

/-- C5: an operation wrapped by `require_npm_install`, called when
`node_modules` is not a directory, raises an error whose message contains
`"npm install"` and the hyphenated operation name, without running the
wrapped body (the state it carries is the unchanged call-time state); when
the directory exists the body runs and its result is returned.  The check
reads only the call-time state, so it is re-evaluated on every call. -/
theorem claim_C5_gate {σ β : Type} (name : String) (node_modules_is_dir : σ → Bool)
    (body : σ → β) (st : σ) :
    (node_modules_is_dir st = false →
      require_npm_install name node_modules_is_dir body st =
        .raised (gateMessage name) st ∧
      containsTok "npm install".toList (gateMessage name).toList = true ∧
      containsTok (hyphenate name).toList (gateMessage name).toList = true) ∧
    (node_modules_is_dir st = true →
      require_npm_install name node_modules_is_dir body st = .ok (body st)) := by
  have h1 : (gateMessage name).toList =
      ("You must run \x22npm install\x22 before running \x22npm run ").toList ++
        ((hyphenate name).toList ++ "\x22".toList) := by
    simp [gateMessage, String.toList]
  have h2 : ("You must run \x22npm install\x22 before running \x22npm run ").toList =
      "You must run \x22".toList ++ "npm install\x22 before running \x22npm run ".toList := by
    decide
  constructor
  · intro h
    refine ⟨by simp [require_npm_install, h], ?_, ?_⟩
    · rw [h1, h2, List.append_assoc]
      exact containsTok_append_right _
        (containsTok_of_isPrefixOf (isPrefixOf_append_left _ (by decide)))
    · rw [h1]
      exact containsTok_append_right _
        (containsTok_of_isPrefixOf (isPrefixOf_append_self _ _))
  · intro h
    simp [require_npm_install, h]

/-- Witness for C5 at a concrete state. -/
theorem claim_C5_gate_witness :
    (require_npm_install "patch_reveal_css" (fun b : Bool => b) (fun _ => (0 : Nat)) false =
      .raised (gateMessage "patch_reveal_css") false ∧
     containsTok "npm install".toList (gateMessage "patch_reveal_css").toList = true ∧
     containsTok (hyphenate "patch_reveal_css").toList (gateMessage "patch_reveal_css").toList = true) ∧
    require_npm_install "patch_reveal_css" (fun b : Bool => b) (fun _ => (0 : Nat)) true =
      .ok 0 :=
  ⟨(claim_C5_gate "patch_reveal_css" (fun b : Bool => b) (fun _ => (0 : Nat)) false).1 rfl,
   (claim_C5_gate "patch_reveal_css" (fun b : Bool => b) (fun _ => (0 : Nat)) true).2 rfl⟩

/-! ## Claim C10: `watch_less` on Windows -/

/-- C10: with `node_modules` present, `watch_less` on a Windows host raises
an unbound-local error for `lessc` before any watcher invocation is built;
on a non-Windows host it invokes the watcher with the unsuffixed binary
path. -/
theorem claim_C10_watch_less :
    Classic.watch_less true true =
      .error "UnboundLocalError: local variable \x27lessc\x27 referenced before assignment" ∧
    Classic.watch_less false true =
      .ok [Classic.watchBin, "npm run less", "src/less"] := by
  constructor
  · rfl
  · rfl

/-! ## Claim C9: `clean` -/

/-- C9: after a successful classic `clean` no artifact path exists and a
second `clean` succeeds on the result unchanged; a classic `clean` on an
artifact-free tree succeeds without raising and changes nothing; the
rise-reveal `clean` never raises, leaves no artifact, and is idempotent. -/
theorem claim_C9_clean :
    (∀ fs fs' : Classic.CFS, Classic.clean fs = some fs' →
        fs'.node_modules = false ∧ fs'.main_css = false ∧ fs'.static_reveal = [] ∧
        Classic.clean fs' = some fs') ∧
    (∀ fs : Classic.CFS, Classic.artifactsAbsent fs → Classic.clean fs = some fs) ∧
    (∀ fs : RiseReveal.RFS,
        (RiseReveal.clean fs).node_modules = false ∧
        (RiseReveal.clean fs).export_dir = false ∧
        RiseReveal.clean (RiseReveal.clean fs) = RiseReveal.clean fs) := by
  refine ⟨?_, ?_, ?_⟩
  · intro fs fs' h
    rw [Classic.clean] at h
    by_cases hall : fs.static_reveal.all (fun e => e.2) = true
    · rw [if_pos hall] at h
      injection h with h'
      subst h'
      exact ⟨rfl, rfl, rfl, rfl⟩
    · rw [if_neg hall] at h
      exact absurd h (by simp)
  · intro fs hfs
    obtain ⟨h1, h2, h3⟩ := hfs
    cases fs
    simp_all [Classic.clean]
  · intro fs
    exact ⟨rfl, rfl, rfl⟩

/-- Witness for C9 at a concrete artifact-free state. -/
theorem claim_C9_clean_witness :
    Classic.clean ⟨false, false, []⟩ = some ⟨false, false, []⟩ :=
  claim_C9_clean.2.1 ⟨false, false, []⟩ ⟨rfl, rfl, rfl⟩

/-! ## Claim C3: vendor copies -/

/-- C3 counterexample: `install_rise_reveal` does not remove a pre-existing
destination directory; on a state where `rise/static/reveal.js` already
exists (and the gate passes, and a source tree is present) it raises
(`shutil.copytree` `FileExistsError`) instead of succeeding with the
destination mirroring the sources. -/
theorem claim_C3_cex :
    Classic.instCex.node_modules = true ∧
    Classic.instCex.rr_export.lookup "reveal.js" = some ["new.txt"] ∧
    Classic.instCex.static_reveal_trees.lookup "reveal.js" = some ["old.txt"] ∧
    Classic.install_rise_reveal Classic.instCex = none := by
  refine ⟨rfl, rfl, rfl, rfl⟩

/-- C3 amended: the rise-reveal `copy` removes any pre-existing `export`
directory and, on success, leaves `export` holding exactly the union of the
two source trees' relative paths (prefixed by their destination names),
regardless of previous `export` content; the classic `install_rise_reveal`
performs no removal - it raises when a destination directory already exists
- and when no destination name pre-exists (and source names are distinct)
it succeeds, adding exactly the source trees and leaving the unrelated
`rise/static` content untouched. -/
theorem claim_C3_amended :
    (∀ fs fs' : RiseReveal.CopyFS, RiseReveal.copy fs = some fs' →
        ∃ rv ch, fs.reveal_src = some rv ∧ fs.chalk_src = some ch ∧
          fs'.export_dir = some (rv.map (fun p => "reveal.js/" ++ p) ++
            ch.map (fun p => "reveal.js-chalkboard/" ++ p))) ∧
    (∀ fs : Classic.InstFS, ∀ n : String,
        (fs.rr_export.lookup n).isSome = true →
        (fs.static_reveal_trees.lookup n).isSome = true →
        Classic.install_rise_reveal fs = none) ∧
    (∀ fs : Classic.InstFS, fs.node_modules = true →
        (∀ n, (fs.rr_export.lookup n).isSome = true →
              (fs.static_reveal_trees.lookup n).isSome = false) →
        (fs.rr_export.map Prod.fst).Nodup →
        Classic.install_rise_reveal fs =
          some { fs with
                  static_reveal_trees := fs.static_reveal_trees ++ fs.rr_export }) := by
  refine ⟨?_, ?_, ?_⟩
  · intro fs fs' h
    rw [RiseReveal.copy] at h
    by_cases hnm : (!fs.node_modules) = true
    · rw [if_pos hnm] at h
      exact absurd h (by simp)
    · rw [if_neg hnm] at h
      rcases hrv : fs.reveal_src with _ | rv <;> rcases hch : fs.chalk_src with _ | ch <;>
        rw [hrv, hch] at h
      · exact absurd h (by simp)
      · exact absurd h (by simp)
      · exact absurd h (by simp)
      · refine ⟨rv, ch, rfl, rfl, ?_⟩
        injection h with h'
        rw [← h']
  · intro fs n hsrc hst
    rw [Classic.install_rise_reveal]
    by_cases hnm : (!fs.node_modules) = true
    · rw [if_pos hnm]
    · rw [if_neg hnm]
      rw [copytreeFold_none fs.rr_export fs.static_reveal_trees n hsrc hst]
      rfl
  · intro fs hnm hdisj hnodup
    rw [Classic.install_rise_reveal, hnm]
    simp only [Bool.not_true, Bool.false_eq_true, if_false]
    rw [copytreeFold_ok fs.rr_export fs.static_reveal_trees hdisj hnodup]
    rfl

/-- Witness for C3 amended at concrete states. -/
theorem claim_C3_amended_witness :
    RiseReveal.copy ⟨true, some ["a.css"], some ["b.js"], some ["stale"]⟩ =
      some ⟨true, some ["a.css"], some ["b.js"],
            some ["reveal.js/a.css", "reveal.js-chalkboard/b.js"]⟩ ∧
    Classic.install_rise_reveal ⟨true, [("reveal.js", ["n.txt"])], [], ["main.css"]⟩ =
      some ⟨true, [("reveal.js", ["n.txt"])], [("reveal.js", ["n.txt"])], ["main.css"]⟩ := by
  constructor
  · rfl
  · exact claim_C3_amended.2.2 ⟨true, [("reveal.js", ["n.txt"])], [], ["main.css"]⟩ rfl
      (by intro n h; simp [List.lookup]) (by simp)

/-! ## Lemmas about `patchThemesList` -/

theorem lookup_isSome_iff_mem {α : Type} (l : List (String × α)) (n : String) :
    (l.lookup n).isSome = true ↔ n ∈ l.map Prod.fst := by
  constructor
  · exact mem_fst_of_lookup_isSome
  · intro h
    induction l with
    | nil => simp at h
    | cons a l ih =>
      obtain ⟨k, v⟩ := a
      by_cases hk : (n == k) = true
      · simp [List.lookup, hk]
      · simp only [List.map, List.mem_cons] at h
        rcases h with h | h
        · exact absurd (beq_iff_eq.mpr h) hk
        · simp only [List.lookup, hk]
          exact ih h

theorem patchThemesList_fst : ∀ ts baks : List (String × Text),
    (RiseReveal.patchThemesList ts baks).1.map Prod.fst = ts.map Prod.fst := by
  intro ts
  induction ts with
  | nil => intro baks; rfl
  | cons a rest ih =>
    obtain ⟨n, c⟩ := a
    intro baks
    simp only [RiseReveal.patchThemesList, List.map]
    rw [ih]

theorem patchThemesList_baks_lookup : ∀ (ts baks : List (String × Text)) (n : String),
    (RiseReveal.patchThemesList ts baks).2.lookup n =
      match baks.lookup n with
      | some v => some v
      | none => ts.lookup n := by
  intro ts
  induction ts with
  | nil =>
    intro baks n
    simp only [RiseReveal.patchThemesList, List.lookup]
    cases baks.lookup n <;> rfl
  | cons a rest ih =>
    obtain ⟨k, c⟩ := a
    intro baks n
    simp only [RiseReveal.patchThemesList]
    rw [ih]
    by_cases hnk : (n == k) = true
    · have hnkeq : n = k := beq_iff_eq.mp hnk
      subst hnkeq
      by_cases hsk : (baks.lookup n).isSome = true
      · rw [if_pos hsk]
        rcases hb : baks.lookup n with _ | v
        · rw [hb] at hsk; simp at hsk
        · rfl
      · have hnone : baks.lookup n = none := by
          cases hb : baks.lookup n
          · rfl
          · rw [hb] at hsk; simp at hsk
        rw [if_neg hsk, lookup_append, hnone]
        simp only [List.lookup, hnk]
    · have hnkf : (n == k) = false := by
        cases hb : n == k
        · rfl
        · exact absurd hb hnk
      by_cases hsk : (baks.lookup k).isSome = true
      · rw [if_pos hsk]
        simp only [List.lookup, hnkf]
      · rw [if_neg hsk, lookup_append]
        rcases hb : baks.lookup n with _ | v
        · simp only [List.lookup, hnkf]
        · rfl

theorem bak_ensure_isSome (baks : List (String × Text)) (n : String) (c : Text) :
    ((if (baks.lookup n).isSome = true then baks else baks ++ [(n, c)]).lookup n).isSome = true := by
  by_cases h : (baks.lookup n).isSome = true
  · rw [if_pos h]; exact h
  · have hnone : baks.lookup n = none := by
      cases hb : baks.lookup n
      · rfl
      · rw [hb] at h; simp at h
    rw [if_neg h, lookup_append, hnone]
    simp [List.lookup]

theorem patchThemesList_idem : ∀ ts baks : List (String × Text),
    RiseReveal.patchThemesList (RiseReveal.patchThemesList ts baks).1
      (RiseReveal.patchThemesList ts baks).2 = RiseReveal.patchThemesList ts baks := by
  intro ts
  induction ts with
  | nil => intro baks; rfl
  | cons a rest ih =>
    obtain ⟨n, c⟩ := a
    intro baks
    have hBsome := bak_ensure_isSome baks n c
    rcases hu : (if (baks.lookup n).isSome = true then baks else baks ++ [(n, c)]).lookup n
      with _ | u
    · rw [hu] at hBsome
      simp at hBsome
    · have hR2 : ((RiseReveal.patchThemesList rest
          (if (baks.lookup n).isSome = true then baks else baks ++ [(n, c)])).2.lookup n) = some u := by
        rw [patchThemesList_baks_lookup, hu]
      conv_lhs => rw [RiseReveal.patchThemesList]
      simp only
      conv_lhs => rw [RiseReveal.patchThemesList]
      simp only [hR2, hu, Option.isSome_some, if_true, Option.getD_some]
      conv_rhs => rw [RiseReveal.patchThemesList]
      simp only [hu, Option.getD_some]
      rw [ih]

/-! ## Idempotence of the text-patch operations (claim C1) -/

theorem patch_reveal_css_idem (fs : RiseReveal.RFS)
    (h : (RiseReveal.patch_reveal_css fs).2 = true) :
    RiseReveal.patch_reveal_css (RiseReveal.patch_reveal_css fs).1 =
      ((RiseReveal.patch_reveal_css fs).1, true) := by
  obtain ⟨nm, ed, rc, rcu, nj, njb, nh, nhb, th, thb, cj, cjb⟩ := fs
  cases nm
  · simp [RiseReveal.patch_reveal_css] at h
  · cases rcu
    · cases rc
      · simp [RiseReveal.patch_reveal_css] at h
      · simp [RiseReveal.patch_reveal_css]
    · simp [RiseReveal.patch_reveal_css]

theorem patch_notes_idem (fs : RiseReveal.RFS)
    (h : (RiseReveal.patch_notes fs).2 = true) :
    RiseReveal.patch_notes (RiseReveal.patch_notes fs).1 =
      ((RiseReveal.patch_notes fs).1, true) := by
  obtain ⟨nm, ed, rc, rcu, nj, njb, nh, nhb, th, thb, cj, cjb⟩ := fs
  cases nm
  · simp [RiseReveal.patch_notes] at h
  · cases njb <;> cases nhb
    · cases nj
      · simp [RiseReveal.patch_notes, RiseReveal.patchNotesJs] at h
      · cases nh
        · simp [RiseReveal.patch_notes, RiseReveal.patchNotesJs,
            RiseReveal.patchNotesHtml] at h
        · simp [RiseReveal.patch_notes, RiseReveal.patchNotesJs,
            RiseReveal.patchNotesHtml]
    · cases nj
      · simp [RiseReveal.patch_notes, RiseReveal.patchNotesJs] at h
      · simp [RiseReveal.patch_notes, RiseReveal.patchNotesJs,
          RiseReveal.patchNotesHtml]
    · cases nh
      · simp [RiseReveal.patch_notes, RiseReveal.patchNotesJs,
          RiseReveal.patchNotesHtml] at h
      · simp [RiseReveal.patch_notes, RiseReveal.patchNotesJs,
          RiseReveal.patchNotesHtml]
    · simp [RiseReveal.patch_notes, RiseReveal.patchNotesJs,
        RiseReveal.patchNotesHtml]

theorem patch_reveal_themes_idem (fs : RiseReveal.RFS)
    (h : (RiseReveal.patch_reveal_themes fs).2 = true) :
    RiseReveal.patch_reveal_themes (RiseReveal.patch_reveal_themes fs).1 =
      ((RiseReveal.patch_reveal_themes fs).1, true) := by
  obtain ⟨nm, ed, rc, rcu, nj, njb, nh, nhb, th, thb, cj, cjb⟩ := fs
  cases nm
  · simp [RiseReveal.patch_reveal_themes] at h
  · have := patchThemesList_idem th thb
    simp [RiseReveal.patch_reveal_themes, this]

/-! ## Claim C1: idempotence of the patch operations -/

/-- C1 counterexample: starting from a pre-patch tree on which
`patch_chalkboard` succeeds once, the second run in succession raises
(`git apply` is run against the already-patched target, not the backup, and
the diff no longer applies), so it neither succeeds nor reproduces the
first run's output. -/
theorem claim_C1_cex :
    (RiseReveal.patch_chalkboard RiseReveal.chalkCex).2 = true ∧
    (RiseReveal.patch_chalkboard (RiseReveal.patch_chalkboard RiseReveal.chalkCex).1).2 = false := by
  constructor
  · rfl
  · rfl

/-- C1 amended: for `patch_reveal_css`, `patch_notes` and
`patch_reveal_themes`, any run that succeeds is idempotent: a second run in
succession also succeeds and leaves the whole file-system state (in
particular every target file) byte-identical to the first run's result.
(`patch_chalkboard` is excluded: its second run fails, see the
counterexample.) -/
theorem claim_C1_amended :
    (∀ fs, (RiseReveal.patch_reveal_css fs).2 = true →
      RiseReveal.patch_reveal_css (RiseReveal.patch_reveal_css fs).1 =
        ((RiseReveal.patch_reveal_css fs).1, true)) ∧
    (∀ fs, (RiseReveal.patch_notes fs).2 = true →
      RiseReveal.patch_notes (RiseReveal.patch_notes fs).1 =
        ((RiseReveal.patch_notes fs).1, true)) ∧
    (∀ fs, (RiseReveal.patch_reveal_themes fs).2 = true →
      RiseReveal.patch_reveal_themes (RiseReveal.patch_reveal_themes fs).1 =
        ((RiseReveal.patch_reveal_themes fs).1, true)) :=
  ⟨patch_reveal_css_idem, patch_notes_idem, patch_reveal_themes_idem⟩

/-- Witness for C1 amended at a concrete state on which all three
operations succeed. -/
theorem claim_C1_amended_witness :
    RiseReveal.patch_reveal_css
        (RiseReveal.patch_reveal_css
          ⟨true, true, some [], none, some [], none, some [], none, [], [], none, none⟩).1 =
      ((RiseReveal.patch_reveal_css
          ⟨true, true, some [], none, some [], none, some [], none, [], [], none, none⟩).1, true) ∧
    RiseReveal.patch_notes
        (RiseReveal.patch_notes
          ⟨true, true, some [], none, some [], none, some [], none, [], [], none, none⟩).1 =
      ((RiseReveal.patch_notes
          ⟨true, true, some [], none, some [], none, some [], none, [], [], none, none⟩).1, true) ∧
    RiseReveal.patch_reveal_themes
        (RiseReveal.patch_reveal_themes
          ⟨true, true, some [], none, some [], none, some [], none, [], [], none, none⟩).1 =
      ((RiseReveal.patch_reveal_themes
          ⟨true, true, some [], none, some [], none, some [], none, [], [], none, none⟩).1, true) :=
  ⟨claim_C1_amended.1 _ rfl, claim_C1_amended.2.1 _ rfl, claim_C1_amended.2.2 _ rfl⟩

/-! ## Claim C2: backup preservation -/

theorem baks_preserved_step (op : RiseReveal.PatchOp) (fs : RiseReveal.RFS) :
    (∀ c, fs.reveal_css_up = some c →
      (RiseReveal.applyPatchOp op fs).1.reveal_css_up = some c) ∧
    (∀ c, fs.notes_js_bak = some c →
      (RiseReveal.applyPatchOp op fs).1.notes_js_bak = some c) ∧
    (∀ c, fs.notes_html_bak = some c →
      (RiseReveal.applyPatchOp op fs).1.notes_html_bak = some c) ∧
    (∀ c, fs.chalk_js_bak = some c →
      (RiseReveal.applyPatchOp op fs).1.chalk_js_bak = some c) ∧
    (∀ n c, fs.themes_bak.lookup n = some c →
      (RiseReveal.applyPatchOp op fs).1.themes_bak.lookup n = some c) := by
  obtain ⟨nm, ed, rc, rcu, nj, njb, nh, nhb, th, thb, cj, cjb⟩ := fs
  cases op
  · cases nm
    · simp [RiseReveal.applyPatchOp, RiseReveal.patch_reveal_css]
    · cases rcu <;> cases rc <;>
        simp [RiseReveal.applyPatchOp, RiseReveal.patch_reveal_css]
  · cases nm
    · simp [RiseReveal.applyPatchOp, RiseReveal.patch_notes]
    · cases njb <;> cases nj <;> cases nhb <;> cases nh <;>
        simp [RiseReveal.applyPatchOp, RiseReveal.patch_notes,
          RiseReveal.patchNotesJs, RiseReveal.patchNotesHtml]
  · cases nm
    · simp [RiseReveal.applyPatchOp, RiseReveal.patch_reveal_themes]
    · refine ⟨?_, ?_, ?_, ?_, ?_⟩
      · intro c h; simpa [RiseReveal.applyPatchOp, RiseReveal.patch_reveal_themes] using h
      · intro c h; simpa [RiseReveal.applyPatchOp, RiseReveal.patch_reveal_themes] using h
      · intro c h; simpa [RiseReveal.applyPatchOp, RiseReveal.patch_reveal_themes] using h
      · intro c h; simpa [RiseReveal.applyPatchOp, RiseReveal.patch_reveal_themes] using h
      · intro n c h
        simp only [RiseReveal.applyPatchOp, RiseReveal.patch_reveal_themes,
          Bool.not_true, Bool.false_eq_true, if_false]
        rw [patchThemesList_baks_lookup, h]
  · cases nm
    · simp [RiseReveal.applyPatchOp, RiseReveal.patch_chalkboard]
    · cases cjb <;> cases cj
      · simp [RiseReveal.applyPatchOp, RiseReveal.patch_chalkboard]
      · rename_i tgt
        rcases hga : RiseReveal.gitApplyChalkboard tgt with _ | t' <;>
          simp [RiseReveal.applyPatchOp, RiseReveal.patch_chalkboard, hga]
      · simp [RiseReveal.applyPatchOp, RiseReveal.patch_chalkboard]
      · rename_i tgt
        rcases hga : RiseReveal.gitApplyChalkboard tgt with _ | t' <;>
          simp [RiseReveal.applyPatchOp, RiseReveal.patch_chalkboard, hga]

theorem baks_preserved_seq (ops : List RiseReveal.PatchOp) (fs : RiseReveal.RFS) :
    (∀ c, fs.reveal_css_up = some c →
      (RiseReveal.runPatchSeq ops fs).reveal_css_up = some c) ∧
    (∀ c, fs.notes_js_bak = some c →
      (RiseReveal.runPatchSeq ops fs).notes_js_bak = some c) ∧
    (∀ c, fs.notes_html_bak = some c →
      (RiseReveal.runPatchSeq ops fs).notes_html_bak = some c) ∧
    (∀ c, fs.chalk_js_bak = some c →
      (RiseReveal.runPatchSeq ops fs).chalk_js_bak = some c) ∧
    (∀ n c, fs.themes_bak.lookup n = some c →
      (RiseReveal.runPatchSeq ops fs).themes_bak.lookup n = some c) := by
  induction ops generalizing fs with
  | nil => exact ⟨fun c h => h, fun c h => h, fun c h => h, fun c h => h, fun n c h => h⟩
  | cons op ops ih =>
    have hstep := baks_preserved_step op fs
    have hrest := ih (RiseReveal.applyPatchOp op fs).1
    refine ⟨?_, ?_, ?_, ?_, ?_⟩
    · intro c h; exact hrest.1 c (hstep.1 c h)
    · intro c h; exact hrest.2.1 c (hstep.2.1 c h)
    · intro c h; exact hrest.2.2.1 c (hstep.2.2.1 c h)
    · intro c h; exact hrest.2.2.2.1 c (hstep.2.2.2.1 c h)
    · intro n c h; exact hrest.2.2.2.2 n c (hstep.2.2.2.2 n c h)

theorem themes_lookup_none_iff (ts baks : List (String × Text)) (n : String) :
    ((RiseReveal.patchThemesList ts baks).1.lookup n = none) ↔ ts.lookup n = none := by
  have hfst := patchThemesList_fst ts baks
  constructor
  · intro h
    cases hb : ts.lookup n
    · rfl
    · have : (ts.lookup n).isSome = true := by rw [hb]; rfl
      have hmem := (lookup_isSome_iff_mem ts n).mp this
      rw [← hfst] at hmem
      have := (lookup_isSome_iff_mem _ n).mpr hmem
      rw [h] at this
      simp at this
  · intro h
    cases hb : (RiseReveal.patchThemesList ts baks).1.lookup n
    · rfl
    · have : ((RiseReveal.patchThemesList ts baks).1.lookup n).isSome = true := by rw [hb]; rfl
      have hmem := (lookup_isSome_iff_mem _ n).mp this
      rw [hfst] at hmem
      have := (lookup_isSome_iff_mem ts n).mpr hmem
      rw [h] at this
      simp at this

theorem patchNotesJs_untouched (fs : RiseReveal.RFS) :
    (RiseReveal.patchNotesJs fs).1.node_modules = fs.node_modules ∧
    (RiseReveal.patchNotesJs fs).1.reveal_css = fs.reveal_css ∧
    (RiseReveal.patchNotesJs fs).1.reveal_css_up = fs.reveal_css_up ∧
    (RiseReveal.patchNotesJs fs).1.notes_html = fs.notes_html ∧
    (RiseReveal.patchNotesJs fs).1.notes_html_bak = fs.notes_html_bak ∧
    (RiseReveal.patchNotesJs fs).1.themes = fs.themes ∧
    (RiseReveal.patchNotesJs fs).1.themes_bak = fs.themes_bak ∧
    (RiseReveal.patchNotesJs fs).1.chalk_js = fs.chalk_js ∧
    (RiseReveal.patchNotesJs fs).1.chalk_js_bak = fs.chalk_js_bak := by
  obtain ⟨nm, ed, rc, rcu, nj, njb, nh, nhb, th, thb, cj, cjb⟩ := fs
  cases njb <;> cases nj <;> simp [RiseReveal.patchNotesJs]

theorem patchNotesJs_inv (orig : Option Text) (fs : RiseReveal.RFS)
    (h : fileInv orig fs.notes_js_bak fs.notes_js) :
    fileInv orig (RiseReveal.patchNotesJs fs).1.notes_js_bak
      (RiseReveal.patchNotesJs fs).1.notes_js := by
  obtain ⟨nm, ed, rc, rcu, nj, njb, nh, nhb, th, thb, cj, cjb⟩ := fs
  rcases h with ⟨hb, ht⟩ | ⟨c, hc, hb⟩
  · simp only at hb ht
    subst hb
    subst ht
    cases nj
    · exact Or.inl ⟨rfl, rfl⟩
    · rename_i t
      exact Or.inr ⟨t, rfl, by simp [RiseReveal.patchNotesJs]⟩
  · simp only at hb
    subst hb
    exact Or.inr ⟨c, hc, by simp [RiseReveal.patchNotesJs]⟩

theorem patchNotesHtml_untouched (fs : RiseReveal.RFS) :
    (RiseReveal.patchNotesHtml fs).1.node_modules = fs.node_modules ∧
    (RiseReveal.patchNotesHtml fs).1.reveal_css = fs.reveal_css ∧
    (RiseReveal.patchNotesHtml fs).1.reveal_css_up = fs.reveal_css_up ∧
    (RiseReveal.patchNotesHtml fs).1.notes_js = fs.notes_js ∧
    (RiseReveal.patchNotesHtml fs).1.notes_js_bak = fs.notes_js_bak ∧
    (RiseReveal.patchNotesHtml fs).1.themes = fs.themes ∧
    (RiseReveal.patchNotesHtml fs).1.themes_bak = fs.themes_bak ∧
    (RiseReveal.patchNotesHtml fs).1.chalk_js = fs.chalk_js ∧
    (RiseReveal.patchNotesHtml fs).1.chalk_js_bak = fs.chalk_js_bak := by
  obtain ⟨nm, ed, rc, rcu, nj, njb, nh, nhb, th, thb, cj, cjb⟩ := fs
  cases nhb <;> cases nh <;> simp [RiseReveal.patchNotesHtml]

theorem patchNotesHtml_inv (orig : Option Text) (fs : RiseReveal.RFS)
    (h : fileInv orig fs.notes_html_bak fs.notes_html) :
    fileInv orig (RiseReveal.patchNotesHtml fs).1.notes_html_bak
      (RiseReveal.patchNotesHtml fs).1.notes_html := by
  obtain ⟨nm, ed, rc, rcu, nj, njb, nh, nhb, th, thb, cj, cjb⟩ := fs
  rcases h with ⟨hb, ht⟩ | ⟨c, hc, hb⟩
  · simp only at hb ht
    subst hb
    subst ht
    cases nh
    · exact Or.inl ⟨rfl, rfl⟩
    · rename_i t
      exact Or.inr ⟨t, rfl, by simp [RiseReveal.patchNotesHtml]⟩
  · simp only at hb
    subst hb
    exact Or.inr ⟨c, hc, by simp [RiseReveal.patchNotesHtml]⟩

theorem patch_notes_state (fs : RiseReveal.RFS) :
    (RiseReveal.patch_notes fs).1 = fs ∨
    (RiseReveal.patch_notes fs).1 = (RiseReveal.patchNotesJs fs).1 ∨
    (RiseReveal.patch_notes fs).1 =
      (RiseReveal.patchNotesHtml (RiseReveal.patchNotesJs fs).1).1 := by
  cases hnm : fs.node_modules
  · left
    simp [RiseReveal.patch_notes, hnm]
  · by_cases hok : (RiseReveal.patchNotesJs fs).2 = true
    · right; right
      simp [RiseReveal.patch_notes, hnm, hok]
    · right; left
      have hokf : (RiseReveal.patchNotesJs fs).2 = false := by
        cases hb : (RiseReveal.patchNotesJs fs).2
        · rfl
        · exact absurd hb hok
      simp [RiseReveal.patch_notes, hnm, hokf]

theorem patch_chalkboard_untouched (fs : RiseReveal.RFS) :
    (RiseReveal.patch_chalkboard fs).1.node_modules = fs.node_modules ∧
    (RiseReveal.patch_chalkboard fs).1.reveal_css = fs.reveal_css ∧
    (RiseReveal.patch_chalkboard fs).1.reveal_css_up = fs.reveal_css_up ∧
    (RiseReveal.patch_chalkboard fs).1.notes_js = fs.notes_js ∧
    (RiseReveal.patch_chalkboard fs).1.notes_js_bak = fs.notes_js_bak ∧
    (RiseReveal.patch_chalkboard fs).1.notes_html = fs.notes_html ∧
    (RiseReveal.patch_chalkboard fs).1.notes_html_bak = fs.notes_html_bak ∧
    (RiseReveal.patch_chalkboard fs).1.themes = fs.themes ∧
    (RiseReveal.patch_chalkboard fs).1.themes_bak = fs.themes_bak := by
  obtain ⟨nm, ed, rc, rcu, nj, njb, nh, nhb, th, thb, cj, cjb⟩ := fs
  cases nm
  · simp [RiseReveal.patch_chalkboard]
  · cases cjb <;> cases cj
    · simp [RiseReveal.patch_chalkboard]
    · rename_i tgt
      rcases hga : RiseReveal.gitApplyChalkboard tgt with _ | t' <;>
        simp [RiseReveal.patch_chalkboard, hga]
    · simp [RiseReveal.patch_chalkboard]
    · rename_i tgt
      rcases hga : RiseReveal.gitApplyChalkboard tgt with _ | t' <;>
        simp [RiseReveal.patch_chalkboard, hga]

theorem patch_chalkboard_inv (orig : Option Text) (fs : RiseReveal.RFS)
    (h : fileInv orig fs.chalk_js_bak fs.chalk_js) :
    fileInv orig (RiseReveal.patch_chalkboard fs).1.chalk_js_bak
      (RiseReveal.patch_chalkboard fs).1.chalk_js := by
  obtain ⟨nm, ed, rc, rcu, nj, njb, nh, nhb, th, thb, cj, cjb⟩ := fs
  cases nm
  · exact h
  · rcases h with ⟨hb, ht⟩ | ⟨c, hc, hb⟩
    · simp only at hb ht
      subst hb
      subst ht
      cases cj
      · exact Or.inl ⟨rfl, rfl⟩
      · rename_i t
        rcases hga : RiseReveal.gitApplyChalkboard t with _ | t'
        · exact Or.inr ⟨t, rfl, by simp [RiseReveal.patch_chalkboard, hga]⟩
        · exact Or.inr ⟨t, rfl, by simp [RiseReveal.patch_chalkboard, hga]⟩
    · simp only at hb
      subst hb
      cases cj
      · exact Or.inr ⟨c, hc, rfl⟩
      · rename_i t
        rcases hga : RiseReveal.gitApplyChalkboard t with _ | t'
        · exact Or.inr ⟨c, hc, by simp [RiseReveal.patch_chalkboard, hga]⟩
        · exact Or.inr ⟨c, hc, by simp [RiseReveal.patch_chalkboard, hga]⟩

theorem patch_reveal_themes_untouched (fs : RiseReveal.RFS) :
    (RiseReveal.patch_reveal_themes fs).1.node_modules = fs.node_modules ∧
    (RiseReveal.patch_reveal_themes fs).1.reveal_css = fs.reveal_css ∧
    (RiseReveal.patch_reveal_themes fs).1.reveal_css_up = fs.reveal_css_up ∧
    (RiseReveal.patch_reveal_themes fs).1.notes_js = fs.notes_js ∧
    (RiseReveal.patch_reveal_themes fs).1.notes_js_bak = fs.notes_js_bak ∧
    (RiseReveal.patch_reveal_themes fs).1.notes_html = fs.notes_html ∧
    (RiseReveal.patch_reveal_themes fs).1.notes_html_bak = fs.notes_html_bak ∧
    (RiseReveal.patch_reveal_themes fs).1.chalk_js = fs.chalk_js ∧
    (RiseReveal.patch_reveal_themes fs).1.chalk_js_bak = fs.chalk_js_bak := by
  obtain ⟨nm, ed, rc, rcu, nj, njb, nh, nhb, th, thb, cj, cjb⟩ := fs
  cases nm <;> simp [RiseReveal.patch_reveal_themes]

theorem patch_reveal_css_untouched (fs : RiseReveal.RFS) :
    (RiseReveal.patch_reveal_css fs).1.node_modules = fs.node_modules ∧
    (RiseReveal.patch_reveal_css fs).1.notes_js = fs.notes_js ∧
    (RiseReveal.patch_reveal_css fs).1.notes_js_bak = fs.notes_js_bak ∧
    (RiseReveal.patch_reveal_css fs).1.notes_html = fs.notes_html ∧
    (RiseReveal.patch_reveal_css fs).1.notes_html_bak = fs.notes_html_bak ∧
    (RiseReveal.patch_reveal_css fs).1.themes = fs.themes ∧
    (RiseReveal.patch_reveal_css fs).1.themes_bak = fs.themes_bak ∧
    (RiseReveal.patch_reveal_css fs).1.chalk_js = fs.chalk_js ∧
    (RiseReveal.patch_reveal_css fs).1.chalk_js_bak = fs.chalk_js_bak := by
  obtain ⟨nm, ed, rc, rcu, nj, njb, nh, nhb, th, thb, cj, cjb⟩ := fs
  cases nm
  · simp [RiseReveal.patch_reveal_css]
  · cases rcu <;> cases rc <;> simp [RiseReveal.patch_reveal_css]

theorem patch_reveal_css_inv (orig : Option Text) (fs : RiseReveal.RFS)
    (h : fileInv orig fs.reveal_css_up fs.reveal_css) :
    fileInv orig (RiseReveal.patch_reveal_css fs).1.reveal_css_up
      (RiseReveal.patch_reveal_css fs).1.reveal_css := by
  obtain ⟨nm, ed, rc, rcu, nj, njb, nh, nhb, th, thb, cj, cjb⟩ := fs
  cases nm
  · exact h
  · rcases h with ⟨hb, ht⟩ | ⟨c, hc, hb⟩
    · simp only at hb ht
      subst hb
      subst ht
      cases rc
      · exact Or.inl ⟨rfl, rfl⟩
      · rename_i t
        exact Or.inr ⟨t, rfl, by simp [RiseReveal.patch_reveal_css]⟩
    · simp only at hb
      subst hb
      exact Or.inr ⟨c, hc, by simp [RiseReveal.patch_reveal_css]⟩

theorem patch_reveal_themes_inv_name (fs0 fs : RiseReveal.RFS) (n : String)
    (h : (fs.themes_bak.lookup n = none ∧ fs.themes.lookup n = fs0.themes.lookup n) ∨
         (∃ c, fs0.themes.lookup n = some c ∧ fs.themes_bak.lookup n = some c)) :
    ((RiseReveal.patch_reveal_themes fs).1.themes_bak.lookup n = none ∧
     (RiseReveal.patch_reveal_themes fs).1.themes.lookup n = fs0.themes.lookup n ∧
     (RiseReveal.patch_reveal_themes fs).1.themes.lookup n = fs.themes.lookup n) ∨
    (∃ c, fs0.themes.lookup n = some c ∧
      (RiseReveal.patch_reveal_themes fs).1.themes_bak.lookup n = some c) := by
  cases hnm : fs.node_modules
  · rcases h with ⟨hb, ht⟩ | hr
    · exact Or.inl ⟨by simp [RiseReveal.patch_reveal_themes, hnm, hb],
        by simp [RiseReveal.patch_reveal_themes, hnm, ht],
        by simp [RiseReveal.patch_reveal_themes, hnm]⟩
    · rcases hr with ⟨c, hc, hb⟩
      exact Or.inr ⟨c, hc, by simp [RiseReveal.patch_reveal_themes, hnm, hb]⟩
  · have hbk : (RiseReveal.patch_reveal_themes fs).1.themes_bak =
        (RiseReveal.patchThemesList fs.themes fs.themes_bak).2 := by
      simp [RiseReveal.patch_reveal_themes, hnm]
    have hth : (RiseReveal.patch_reveal_themes fs).1.themes =
        (RiseReveal.patchThemesList fs.themes fs.themes_bak).1 := by
      simp [RiseReveal.patch_reveal_themes, hnm]
    rcases h with ⟨hb, ht⟩ | ⟨c, hc, hb⟩
    · rcases htn : fs.themes.lookup n with _ | v
      · refine Or.inl ⟨?_, ?_, ?_⟩
        · rw [hbk, patchThemesList_baks_lookup, hb, htn]
        · rw [hth, ← ht, htn]
          exact (themes_lookup_none_iff fs.themes fs.themes_bak n).mpr htn
        · rw [hth]
          exact (themes_lookup_none_iff fs.themes fs.themes_bak n).mpr htn
      · refine Or.inr ⟨v, by rw [← ht, htn], ?_⟩
        rw [hbk, patchThemesList_baks_lookup, hb, htn]
    · refine Or.inr ⟨c, hc, ?_⟩
      rw [hbk, patchThemesList_baks_lookup, hb]

theorem inv_step (fs0 fs : RiseReveal.RFS) (op : RiseReveal.PatchOp)
    (h : backupInvariant fs0 fs) :
    backupInvariant fs0 (RiseReveal.applyPatchOp op fs).1 := by
  obtain ⟨h1, h2, h3, h4, h5⟩ := h
  cases op
  · -- patch_reveal_css
    have hu := patch_reveal_css_untouched fs
    refine ⟨patch_reveal_css_inv fs0.reveal_css fs h1, ?_, ?_, ?_, ?_⟩
    · show fileInv _ _ _
      rw [show (RiseReveal.applyPatchOp RiseReveal.PatchOp.css fs).1 =
        (RiseReveal.patch_reveal_css fs).1 from rfl, hu.2.2.1, hu.2.1]
      exact h2
    · show fileInv _ _ _
      rw [show (RiseReveal.applyPatchOp RiseReveal.PatchOp.css fs).1 =
        (RiseReveal.patch_reveal_css fs).1 from rfl, hu.2.2.2.2.1, hu.2.2.2.1]
      exact h3
    · show fileInv _ _ _
      rw [show (RiseReveal.applyPatchOp RiseReveal.PatchOp.css fs).1 =
        (RiseReveal.patch_reveal_css fs).1 from rfl, hu.2.2.2.2.2.2.2.2, hu.2.2.2.2.2.2.2.1]
      exact h4
    · intro n
      rw [show (RiseReveal.applyPatchOp RiseReveal.PatchOp.css fs).1 =
        (RiseReveal.patch_reveal_css fs).1 from rfl, hu.2.2.2.2.2.2.1, hu.2.2.2.2.2.1]
      exact h5 n
  · -- patch_notes
    rcases patch_notes_state fs with hst | hst | hst <;>
      rw [show (RiseReveal.applyPatchOp RiseReveal.PatchOp.notes fs).1 =
        (RiseReveal.patch_notes fs).1 from rfl, hst]
    · exact ⟨h1, h2, h3, h4, h5⟩
    · have hu := patchNotesJs_untouched fs
      refine ⟨?_, patchNotesJs_inv fs0.notes_js fs h2, ?_, ?_, ?_⟩
      · show fileInv _ _ _
        rw [hu.2.2.1, hu.2.1]
        exact h1
      · show fileInv _ _ _
        rw [hu.2.2.2.2.1, hu.2.2.2.1]
        exact h3
      · show fileInv _ _ _
        rw [hu.2.2.2.2.2.2.2.2, hu.2.2.2.2.2.2.2.1]
        exact h4
      · intro n
        rw [hu.2.2.2.2.2.2.1, hu.2.2.2.2.2.1]
        exact h5 n
    · have huj := patchNotesJs_untouched fs
      have huh := patchNotesHtml_untouched (RiseReveal.patchNotesJs fs).1
      refine ⟨?_, ?_, ?_, ?_, ?_⟩
      · show fileInv _ _ _
        rw [huh.2.2.1, huh.2.1, huj.2.2.1, huj.2.1]
        exact h1
      · show fileInv _ _ _
        rw [huh.2.2.2.2.1, huh.2.2.2.1]
        exact patchNotesJs_inv fs0.notes_js fs h2
      · have := patchNotesHtml_inv fs0.notes_html (RiseReveal.patchNotesJs fs).1
          (by rw [huj.2.2.2.2.1, huj.2.2.2.1]; exact h3)
        exact this
      · show fileInv _ _ _
        rw [huh.2.2.2.2.2.2.2.2, huh.2.2.2.2.2.2.2.1, huj.2.2.2.2.2.2.2.2, huj.2.2.2.2.2.2.2.1]
        exact h4
      · intro n
        rw [huh.2.2.2.2.2.2.1, huh.2.2.2.2.2.1, huj.2.2.2.2.2.2.1, huj.2.2.2.2.2.1]
        exact h5 n
  · -- patch_reveal_themes
    have hu := patch_reveal_themes_untouched fs
    refine ⟨?_, ?_, ?_, ?_, ?_⟩
    · show fileInv _ _ _
      rw [show (RiseReveal.applyPatchOp RiseReveal.PatchOp.themes fs).1 =
        (RiseReveal.patch_reveal_themes fs).1 from rfl, hu.2.2.1, hu.2.1]
      exact h1
    · show fileInv _ _ _
      rw [show (RiseReveal.applyPatchOp RiseReveal.PatchOp.themes fs).1 =
        (RiseReveal.patch_reveal_themes fs).1 from rfl, hu.2.2.2.2.1, hu.2.2.2.1]
      exact h2
    · show fileInv _ _ _
      rw [show (RiseReveal.applyPatchOp RiseReveal.PatchOp.themes fs).1 =
        (RiseReveal.patch_reveal_themes fs).1 from rfl, hu.2.2.2.2.2.2.1, hu.2.2.2.2.2.1]
      exact h3
    · show fileInv _ _ _
      rw [show (RiseReveal.applyPatchOp RiseReveal.PatchOp.themes fs).1 =
        (RiseReveal.patch_reveal_themes fs).1 from rfl, hu.2.2.2.2.2.2.2.2, hu.2.2.2.2.2.2.2.1]
      exact h4
    · intro n
      rcases patch_reveal_themes_inv_name fs0 fs n (h5 n) with ⟨ha, hb, _⟩ | hr
      · exact Or.inl ⟨ha, hb⟩
      · exact Or.inr hr
  · -- patch_chalkboard
    have hu := patch_chalkboard_untouched fs
    refine ⟨?_, ?_, ?_, patch_chalkboard_inv fs0.chalk_js fs h4, ?_⟩
    · show fileInv _ _ _
      rw [show (RiseReveal.applyPatchOp RiseReveal.PatchOp.chalk fs).1 =
        (RiseReveal.patch_chalkboard fs).1 from rfl, hu.2.2.1, hu.2.1]
      exact h1
    · show fileInv _ _ _
      rw [show (RiseReveal.applyPatchOp RiseReveal.PatchOp.chalk fs).1 =
        (RiseReveal.patch_chalkboard fs).1 from rfl, hu.2.2.2.2.1, hu.2.2.2.1]
      exact h2
    · show fileInv _ _ _
      rw [show (RiseReveal.applyPatchOp RiseReveal.PatchOp.chalk fs).1 =
        (RiseReveal.patch_chalkboard fs).1 from rfl, hu.2.2.2.2.2.2.1, hu.2.2.2.2.2.1]
      exact h3
    · intro n
      rw [show (RiseReveal.applyPatchOp RiseReveal.PatchOp.chalk fs).1 =
        (RiseReveal.patch_chalkboard fs).1 from rfl, hu.2.2.2.2.2.2.2.2, hu.2.2.2.2.2.2.2.1]
      exact h5 n

theorem inv_runSeq (fs0 : RiseReveal.RFS) (ops : List RiseReveal.PatchOp)
    (fs : RiseReveal.RFS) (h : backupInvariant fs0 fs) :
    backupInvariant fs0 (RiseReveal.runPatchSeq ops fs) := by
  induction ops generalizing fs with
  | nil => exact h
  | cons op ops ih => exact ih _ (inv_step fs0 fs op h)

theorem inv_init (fs0 : RiseReveal.RFS) (h : pristineBaks fs0) :
    backupInvariant fs0 fs0 := by
  obtain ⟨h1, h2, h3, h4, h5⟩ := h
  refine ⟨Or.inl ⟨h1, rfl⟩, Or.inl ⟨h2, rfl⟩, Or.inl ⟨h3, rfl⟩, Or.inl ⟨h4, rfl⟩, ?_⟩
  intro n
  exact Or.inl ⟨by rw [h5]; rfl, rfl⟩

theorem first_run_css (fs : RiseReveal.RFS) (c : Text) (hnm : fs.node_modules = true)
    (hb : fs.reveal_css_up = none) (ht : fs.reveal_css = some c) :
    (RiseReveal.patch_reveal_css fs).1.reveal_css_up = some c := by
  obtain ⟨nm, ed, rc, rcu, nj, njb, nh, nhb, th, thb, cj, cjb⟩ := fs
  simp only at hnm hb ht
  subst hnm
  subst hb
  subst ht
  simp [RiseReveal.patch_reveal_css]

theorem first_run_notes (fs : RiseReveal.RFS) (c : Text) (hnm : fs.node_modules = true)
    (hb : fs.notes_js_bak = none) (ht : fs.notes_js = some c) :
    (RiseReveal.patch_notes fs).1.notes_js_bak = some c := by
  obtain ⟨nm, ed, rc, rcu, nj, njb, nh, nhb, th, thb, cj, cjb⟩ := fs
  simp only at hnm hb ht
  subst hnm
  subst hb
  subst ht
  cases nhb <;> cases nh <;>
    simp [RiseReveal.patch_notes, RiseReveal.patchNotesJs, RiseReveal.patchNotesHtml]

theorem first_run_themes (fs : RiseReveal.RFS) (n : String) (c : Text)
    (hnm : fs.node_modules = true) (hb : fs.themes_bak.lookup n = none)
    (ht : fs.themes.lookup n = some c) :
    (RiseReveal.patch_reveal_themes fs).1.themes_bak.lookup n = some c := by
  simp only [RiseReveal.patch_reveal_themes, hnm, Bool.not_true, Bool.false_eq_true, if_false]
  rw [patchThemesList_baks_lookup, hb, ht]

/-- C2: no patch operation ever overwrites or deletes an existing backup
(over arbitrary sequences of patch-operation invocations, raising or not);
the first run of a patch operation on a backup-less target copies the
then-current (pristine) target to the backup; hence starting from a
pre-patch tree, after any sequence of patch operations every existing
backup holds exactly the corresponding original pre-patch target content
(`backupInvariant`). -/
theorem claim_C2_backups :
    (∀ (ops : List RiseReveal.PatchOp) (fs : RiseReveal.RFS),
      (∀ c, fs.reveal_css_up = some c →
        (RiseReveal.runPatchSeq ops fs).reveal_css_up = some c) ∧
      (∀ c, fs.notes_js_bak = some c →
        (RiseReveal.runPatchSeq ops fs).notes_js_bak = some c) ∧
      (∀ c, fs.notes_html_bak = some c →
        (RiseReveal.runPatchSeq ops fs).notes_html_bak = some c) ∧
      (∀ c, fs.chalk_js_bak = some c →
        (RiseReveal.runPatchSeq ops fs).chalk_js_bak = some c) ∧
      (∀ n c, fs.themes_bak.lookup n = some c →
        (RiseReveal.runPatchSeq ops fs).themes_bak.lookup n = some c)) ∧
    (∀ (fs : RiseReveal.RFS) (c : Text), fs.node_modules = true →
      fs.reveal_css_up = none → fs.reveal_css = some c →
      (RiseReveal.patch_reveal_css fs).1.reveal_css_up = some c) ∧
    (∀ (fs : RiseReveal.RFS) (c : Text), fs.node_modules = true →
      fs.notes_js_bak = none → fs.notes_js = some c →
      (RiseReveal.patch_notes fs).1.notes_js_bak = some c) ∧
    (∀ (fs : RiseReveal.RFS) (n : String) (c : Text), fs.node_modules = true →
      fs.themes_bak.lookup n = none → fs.themes.lookup n = some c →
      (RiseReveal.patch_reveal_themes fs).1.themes_bak.lookup n = some c) ∧
    (∀ (ops : List RiseReveal.PatchOp) (fs0 : RiseReveal.RFS), pristineBaks fs0 →
      backupInvariant fs0 (RiseReveal.runPatchSeq ops fs0)) :=
  ⟨baks_preserved_seq, first_run_css, first_run_notes, first_run_themes,
   fun ops fs0 h => inv_runSeq fs0 ops fs0 (inv_init fs0 h)⟩

/-- Witness for C2 at a concrete state and operation sequence. -/
theorem claim_C2_backups_witness :
    (RiseReveal.runPatchSeq [RiseReveal.PatchOp.css, RiseReveal.PatchOp.notes]
      ⟨true, true, some [], some ['x'], none, none, none, none, [], [], none, none⟩).reveal_css_up
        = some ['x'] ∧
    backupInvariant
      ⟨true, true, some [], none, some [], none, some [], none, [], [], none, none⟩
      (RiseReveal.runPatchSeq [RiseReveal.PatchOp.css]
        ⟨true, true, some [], none, some [], none, some [], none, [], [], none, none⟩) :=
  ⟨(claim_C2_backups.1 [RiseReveal.PatchOp.css, RiseReveal.PatchOp.notes]
      ⟨true, true, some [], some ['x'], none, none, none, none, [], [], none, none⟩).1 ['x'] rfl,
   claim_C2_backups.2.2.2.2 [RiseReveal.PatchOp.css]
      ⟨true, true, some [], none, some [], none, some [], none, [], [], none, none⟩
      ⟨rfl, rfl, rfl, rfl, rfl⟩⟩

/-! ## Structure of `pyReplace` outputs (claim C7) -/

theorem nil_isPrefixOf (t : List Char) : ([] : List Char).isPrefixOf t = true := by
  cases t <;> rfl

theorem prefix_split_append (δ r X : List Char) (h : δ.isPrefixOf (r ++ X) = true) :
    δ.isPrefixOf r = true ∨ r.isPrefixOf δ = true := by
  induction δ generalizing r with
  | nil => exact Or.inl (nil_isPrefixOf r)
  | cons d δ ih =>
    cases r with
    | nil => exact Or.inr (nil_isPrefixOf _)
    | cons a r =>
      simp only [List.cons_append, List.isPrefixOf, Bool.and_eq_true] at h ⊢
      rcases ih r h.2 with h' | h'
      · exact Or.inl ⟨h.1, h'⟩
      · exact Or.inr ⟨by rw [beq_iff_eq] at h ⊢; exact h.1.symm, h'⟩

theorem suffix_mem_tails (α β : List Char) : β ∈ (α ++ β).tails := by
  induction α with
  | nil => cases β <;> simp
  | cons a α ih => simp only [List.cons_append, List.tails_cons, List.mem_cons]; exact Or.inr ih

theorem isPrefixOf_take_of_append (q A X : List Char) (h : q.isPrefixOf (A ++ X) = true) :
    (q.take A.length).isPrefixOf A = true := by
  induction A generalizing q with
  | nil => simp
  | cons a A ih =>
    cases q with
    | nil => simp
    | cons b q =>
      simp only [List.cons_append, List.isPrefixOf, Bool.and_eq_true] at h
      simp only [List.length_cons, List.take_succ_cons, List.isPrefixOf, Bool.and_eq_true]
      exact ⟨h.1, ih q h.2⟩

theorem containsTok_transit (q r : List Char) (hq : q ≠ [])
    (hsc : ∀ i, i < r.length → (q.take (r.length - i)).isPrefixOf (r.drop i) = false) :
    ∀ X, containsTok q (r ++ X) = containsTok q X := by
  induction r with
  | nil => intro X; rfl
  | cons a r ih =>
    intro X
    have h0 := hsc 0 (by simp)
    simp only [Nat.sub_zero, List.drop_zero] at h0
    have hfalse : q.isPrefixOf (a :: r ++ X) = false := by
      cases hb : q.isPrefixOf (a :: r ++ X)
      · rfl
      · have hcontr := isPrefixOf_take_of_append q (a :: r) X hb
        rw [h0] at hcontr
        simp at hcontr
    cases q with
    | nil => exact absurd rfl hq
    | cons b q' =>
      rw [List.cons_append, containsTok, ← List.cons_append, hfalse, Bool.false_or]
      have hsc' : ∀ i, i < r.length →
          ((b :: q').take (r.length - i)).isPrefixOf (r.drop i) = false := by
        intro i hi
        have := hsc (i + 1) (by simp only [List.length_cons]; omega)
        simpa using this
      exact ih hsc' X

theorem containsTok_suffix {q t : List Char} (c : Char)
    (h : containsTok q (c :: t) = false) : containsTok q t = false := by
  cases hb : containsTok q t
  · rfl
  · rw [containsTok, hb, Bool.or_true] at h
    exact h.symm ▸ rfl

theorem containsTok_drop {q t : List Char} (n : Nat)
    (h : containsTok q t = false) : containsTok q (t.drop n) = false := by
  induction t generalizing n with
  | nil => simpa using h
  | cons c t ih =>
    cases n with
    | zero => exact h
    | succ n => exact ih n (containsTok_suffix c h)

theorem pyReplace_pref (p r : List Char) : ∀ (t δ : List Char),
    δ.isPrefixOf (pyReplace p r t) = true →
    δ.isPrefixOf t = true ∨
      ∃ α β, δ = α ++ β ∧ β ≠ [] ∧ (β.isPrefixOf r = true ∨ r.isPrefixOf β = true) := by
  intro t
  induction t using pyReplace.induct p r with
  | case1 =>
    intro δ h
    rw [pyReplace] at h
    exact Or.inl h
  | case2 c t hm ih =>
    intro δ h
    rw [pyReplace, if_pos hm] at h
    cases hδ : δ with
    | nil => exact Or.inl (nil_isPrefixOf _)
    | cons d δ' =>
      subst hδ
      rcases prefix_split_append _ r _ h with h' | h'
      · exact Or.inr ⟨[], d :: δ', rfl, by simp, Or.inl h'⟩
      · exact Or.inr ⟨[], d :: δ', rfl, by simp, Or.inr h'⟩
  | case3 c t hm ih =>
    intro δ h
    rw [pyReplace, if_neg hm] at h
    cases hδ : δ with
    | nil => exact Or.inl (nil_isPrefixOf _)
    | cons d δ' =>
      subst hδ
      simp only [List.isPrefixOf, Bool.and_eq_true] at h
      cases hδ' : δ' with
      | nil =>
        subst hδ'
        refine Or.inl ?_
        simp only [List.isPrefixOf, Bool.and_eq_true]
        exact ⟨h.1, trivial⟩
      | cons e δ'' =>
        subst hδ'
        rcases ih (e :: δ'') h.2 with h' | ⟨α, β, heq, hβ, hor⟩
        · refine Or.inl ?_
          simp only [List.isPrefixOf, Bool.and_eq_true]
          exact ⟨h.1, h'⟩
        · exact Or.inr ⟨d :: α, β, by rw [heq]; rfl, hβ, hor⟩

theorem pyReplace_no_self (p r : List Char) (hp : p ≠ [])
    (hsc : ∀ i, i < r.length → (p.take (r.length - i)).isPrefixOf (r.drop i) = false)
    (htc : ∀ β ∈ p.tails, β ≠ [] → β ≠ p →
      β.isPrefixOf r = false ∧ r.isPrefixOf β = false) :
    ∀ t, containsTok p (pyReplace p r t) = false := by
  intro t
  induction t using pyReplace.induct p r with
  | case1 =>
    rw [pyReplace]
    simpa [containsTok] using hp
  | case2 c t hm ih =>
    rw [pyReplace, if_pos hm, containsTok_transit p r hp hsc]
    exact ih
  | case3 c t hm ih =>
    rw [pyReplace, if_neg hm]
    cases hp' : p with
    | nil => exact absurd hp' hp
    | cons d p' =>
      subst hp'
      rw [containsTok, ih, Bool.or_false]
      cases hb : (d :: p').isPrefixOf (c :: pyReplace (d :: p') r t)
      · rfl
      · exfalso
        simp only [List.isPrefixOf, Bool.and_eq_true] at hb
        cases hp'' : p' with
        | nil =>
          subst hp''
          apply hm
          simp only [List.isPrefixOf, Bool.and_eq_true]
          exact ⟨hb.1, trivial⟩
        | cons e p'' =>
          subst hp''
          rcases pyReplace_pref _ r t _ hb.2 with h' | ⟨α, β, heq, hβ, hor⟩
          · apply hm
            simp only [List.isPrefixOf, Bool.and_eq_true]
            exact ⟨hb.1, h'⟩
          · have hβtail : β ∈ (d :: e :: p'').tails := by
              rw [List.tails_cons]
              exact List.mem_cons_of_mem _ (heq ▸ suffix_mem_tails α β)
            have hβne : β ≠ d :: e :: p'' := by
              intro hcontra
              have h1 : β.length ≤ (e :: p'').length := by
                rw [heq]
                simp
              rw [hcontra] at h1
              simp at h1
            have := htc β hβtail hβ hβne
            rcases hor with h' | h'
            · rw [this.1] at h'
              exact absurd h' (by simp)
            · rw [this.2] at h'
              exact absurd h' (by simp)

theorem pyReplace_no_new (p r q : List Char) (hp : p ≠ []) (hq : q ≠ [])
    (hsc : ∀ i, i < r.length → (q.take (r.length - i)).isPrefixOf (r.drop i) = false)
    (htc : ∀ β ∈ q.tails, β ≠ [] → β ≠ q →
      β.isPrefixOf r = false ∧ r.isPrefixOf β = false) :
    ∀ t, containsTok q t = false → containsTok q (pyReplace p r t) = false := by
  intro t
  induction t using pyReplace.induct p r with
  | case1 =>
    intro h
    rw [pyReplace]
    exact h
  | case2 c t hm ih =>
    intro h
    rw [pyReplace, if_pos hm, containsTok_transit q r hq hsc]
    exact ih (containsTok_drop _ (containsTok_suffix c h))
  | case3 c t hm ih =>
    intro h
    have ht : containsTok q t = false := containsTok_suffix c h
    rw [pyReplace, if_neg hm]
    cases hq' : q with
    | nil => exact absurd hq' hq
    | cons d q' =>
      subst hq'
      rw [containsTok, ih ht, Bool.or_false]
      cases hb : (d :: q').isPrefixOf (c :: pyReplace p r t)
      · rfl
      · exfalso
        simp only [List.isPrefixOf, Bool.and_eq_true] at hb
        cases hq'' : q' with
        | nil =>
          subst hq''
          rw [containsTok] at h
          have : (d :: ([] : List Char)).isPrefixOf (c :: t) = true := by
            simp only [List.isPrefixOf, Bool.and_eq_true]
            exact ⟨hb.1, trivial⟩
          rw [this] at h
          exact absurd h (by simp)
        | cons e q'' =>
          subst hq''
          rcases pyReplace_pref p r t _ hb.2 with h' | ⟨α, β, heq, hβ, hor⟩
          · rw [containsTok] at h
            have : (d :: e :: q'').isPrefixOf (c :: t) = true := by
              simp only [List.isPrefixOf, Bool.and_eq_true]
              exact ⟨hb.1, h'⟩
            rw [this] at h
            exact absurd h (by simp)
          · have hβtail : β ∈ (d :: e :: q'').tails := by
              rw [List.tails_cons]
              exact List.mem_cons_of_mem _ (heq ▸ suffix_mem_tails α β)
            have hβne : β ≠ d :: e :: q'' := by
              intro hcontra
              have h1 : β.length ≤ (e :: q'').length := by
                rw [heq]
                simp
              rw [hcontra] at h1
              simp at h1
            have := htc β hβtail hβ hβne
            rcases hor with h' | h'
            · rw [this.1] at h'
              exact absurd h' (by simp)
            · rw [this.2] at h'
              exact absurd h' (by simp)

theorem pyReplace_length (p r : List Char) (hp : p ≠ []) (hlen : p.length = r.length) :
    ∀ t, (pyReplace p r t).length = t.length := by
  intro t
  induction t using pyReplace.induct p r with
  | case1 => rw [pyReplace]
  | case2 c t hm ih =>
    rw [pyReplace, if_pos hm]
    have hple : p.length ≤ (c :: t).length := (List.isPrefixOf_iff_prefix.mp hm).length_le
    have hpne : 1 ≤ p.length := by
      cases hpp : p
      · exact absurd hpp hp
      · simp
    simp only [List.length_append, List.length_cons, List.length_drop, ih] at *
    omega
  | case3 c t hm ih =>
    rw [pyReplace, if_neg hm]
    simp only [List.length_cons, ih]

theorem pyReplace_getElem (p r : List Char) (hp : p ≠ []) (hlen : p.length = r.length) :
    ∀ t j, (pyReplace p r t)[j]? = t[j]? ∨
      ∃ b, b ≤ j ∧ j < b + p.length ∧ OccAt p t b := by
  have hpne : 1 ≤ p.length := by
    cases hpp : p
    · exact absurd hpp hp
    · simp
  intro t
  induction t using pyReplace.induct p r with
  | case1 =>
    intro j
    left
    rw [pyReplace]
  | case2 c t hm ih =>
    intro j
    rw [pyReplace, if_pos hm]
    by_cases hj : j < r.length
    · right
      refine ⟨0, Nat.zero_le j, by omega, ?_⟩
      rw [OccAt, List.drop_zero]
      exact hm
    · have hjge : r.length ≤ j := by omega
      obtain ⟨jj, rfl⟩ : ∃ jj, j = jj + 1 := ⟨j - 1, by omega⟩
      rw [List.getElem?_append_right hjge]
      rcases ih (jj + 1 - r.length) with h' | ⟨b, hb1, hb2, hocc⟩
      · left
        rw [h', List.getElem?_drop]
        have hidx : p.length - 1 + (jj + 1 - r.length) = jj := by omega
        rw [hidx, List.getElem?_cons_succ]
      · right
        refine ⟨p.length + b, by omega, by omega, ?_⟩
        have h3 : (c :: t).drop (p.length + b) = t.drop (p.length - 1 + b) := by
          have h4 : p.length + b = (p.length - 1 + b) + 1 := by omega
          rw [h4, List.drop_succ_cons]
        rw [OccAt, h3, ← List.drop_drop]
        exact hocc
  | case3 c t hm ih =>
    intro j
    rw [pyReplace, if_neg hm]
    cases j with
    | zero =>
      left
      rw [List.getElem?_cons_zero, List.getElem?_cons_zero]
    | succ jj =>
      rcases ih jj with h' | ⟨b, hb1, hb2, hocc⟩
      · left
        rw [List.getElem?_cons_succ, List.getElem?_cons_succ]
        exact h'
      · right
        refine ⟨b + 1, by omega, by omega, ?_⟩
        rw [OccAt, List.drop_succ_cons]
        exact hocc

/-- C7: after `patch_notes`' three replacements on `notes.js` text, no
occurrence of any of the three exact-match tokens remains; the text keeps
its length; and every byte that differs from the input lies inside a
replaced occurrence of one of the three tokens (in the respective
intermediate text it was replaced in) - all other bytes are identical. -/
theorem claim_C7_notes_js (t : Text) :
    containsTok tokSrc (notesJsTransform t) = false ∧
    containsTok tokKeyCode (notesJsTransform t) = false ∧
    containsTok tokKeyS (notesJsTransform t) = false ∧
    (notesJsTransform t).length = t.length ∧
    (∀ j, (notesJsTransform t)[j]? = t[j]? ∨
      (∃ b, b ≤ j ∧ j < b + tokSrc.length ∧ OccAt tokSrc t b) ∨
      (∃ b, b ≤ j ∧ j < b + tokKeyCode.length ∧
        OccAt tokKeyCode (pyReplace tokSrc repSrc t) b) ∨
      (∃ b, b ≤ j ∧ j < b + tokKeyS.length ∧
        OccAt tokKeyS (pyReplace tokKeyCode repKeyCode (pyReplace tokSrc repSrc t)) b)) := by
  refine ⟨?_, ?_, ?_, ?_, ?_⟩
  · apply pyReplace_no_new tokKeyS repKeyS tokSrc (by decide) (by decide) (by decide) (by decide)
    apply pyReplace_no_new tokKeyCode repKeyCode tokSrc (by decide) (by decide) (by decide)
      (by decide)
    exact pyReplace_no_self tokSrc repSrc (by decide) (by decide) (by decide) t
  · apply pyReplace_no_new tokKeyS repKeyS tokKeyCode (by decide) (by decide) (by decide)
      (by decide)
    exact pyReplace_no_self tokKeyCode repKeyCode (by decide) (by decide) (by decide) _
  · exact pyReplace_no_self tokKeyS repKeyS (by decide) (by decide) (by decide) _
  · rw [notesJsTransform, pyReplace_length tokKeyS repKeyS (by decide) (by decide),
        pyReplace_length tokKeyCode repKeyCode (by decide) (by decide),
        pyReplace_length tokSrc repSrc (by decide) (by decide)]
  · intro j
    rcases pyReplace_getElem tokKeyS repKeyS (by decide) (by decide)
        (pyReplace tokKeyCode repKeyCode (pyReplace tokSrc repSrc t)) j
      with h3 | ⟨b, h1, h2, ho⟩
    · rcases pyReplace_getElem tokKeyCode repKeyCode (by decide) (by decide)
          (pyReplace tokSrc repSrc t) j
        with h2' | ⟨b, h1, h2, ho⟩
      · rcases pyReplace_getElem tokSrc repSrc (by decide) (by decide) t j
          with h1' | ⟨b, hb1, hb2, ho⟩
        · left
          rw [notesJsTransform, h3, h2', h1']
        · exact Or.inr (Or.inl ⟨b, hb1, hb2, ho⟩)
      · exact Or.inr (Or.inr (Or.inl ⟨b, h1, h2, ho⟩))
    · exact Or.inr (Or.inr (Or.inr ⟨b, h1, h2, ho⟩))

/-! ## Claim C4: newline handling of the patch writes -/

theorem univNewlines_no_cr (c : Text) (h : ¬ '\r' ∈ c) : univNewlines c = c := by
  induction c with
  | nil => rfl
  | cons a t ih =>
    have ha : ¬ a = '\r' := by
      intro hcontra
      exact h (hcontra ▸ List.mem_cons_self a t)
    have ht : ¬ '\r' ∈ t := fun hm => h (List.mem_cons_of_mem a hm)
    rw [univNewlines.eq_def]
    simp only [ha, if_false]
    rw [ih ht]

theorem pyReplace_id (p r : List Char) : ∀ t, containsTok p t = false → pyReplace p r t = t := by
  intro t
  induction t using pyReplace.induct p r with
  | case1 =>
    intro h
    rw [pyReplace]
  | case2 c t hm ih =>
    intro h
    rw [containsTok, hm] at h
    simp at h
  | case3 c t hm ih =>
    intro h
    rw [pyReplace, if_neg hm, ih (containsTok_suffix c h)]

theorem notesJsTransform_id (c : Text) (h1 : containsTok tokSrc c = false)
    (h2 : containsTok tokKeyCode c = false) (h3 : containsTok tokKeyS c = false) :
    notesJsTransform c = c := by
  rw [notesJsTransform, pyReplace_id tokSrc repSrc c h1, pyReplace_id tokKeyCode repKeyCode c h2,
    pyReplace_id tokKeyS repKeyS c h3]

theorem patch_notes_js_target (fs : RiseReveal.RFS) (c : Text)
    (hnm : fs.node_modules = true) (hb : fs.notes_js_bak = some c) :
    (RiseReveal.patch_notes fs).1.notes_js = some (notesJsTransform (univNewlines c)) := by
  obtain ⟨nm, ed, rc, rcu, nj, njb, nh, nhb, th, thb, cj, cjb⟩ := fs
  simp only at hnm hb
  subst hnm
  subst hb
  cases nhb <;> cases nh <;>
    simp [RiseReveal.patch_notes, RiseReveal.patchNotesJs, RiseReveal.patchNotesHtml]

theorem patch_css_target (fs : RiseReveal.RFS) (c : Text)
    (hnm : fs.node_modules = true) (hb : fs.reveal_css_up = some c) :
    (RiseReveal.patch_reveal_css fs).1.reveal_css =
      some (commentOutLine11 (univNewlines c)) := by
  obtain ⟨nm, ed, rc, rcu, nj, njb, nh, nhb, th, thb, cj, cjb⟩ := fs
  simp only at hnm hb
  subst hnm
  subst hb
  simp [RiseReveal.patch_reveal_css]

/-- C4 counterexample: a backup whose lines end in CRLF, containing none of
the replacement tokens (so no byte is touched by the transformation), is
rewritten to the target with LF endings: the `'\r'` byte of the backup does
not appear in the output, because `Path.read_text()` applies
universal-newline translation on the read. -/
theorem claim_C4_cex :
    RiseReveal.crlfCex.notes_js_bak = some "a\r\nb".toList ∧
    containsTok tokSrc "a\r\nb".toList = false ∧
    containsTok tokKeyCode "a\r\nb".toList = false ∧
    containsTok tokKeyS "a\r\nb".toList = false ∧
    (RiseReveal.patch_notes RiseReveal.crlfCex).1.notes_js = some "a\nb".toList ∧
    "a\nb".toList ≠ "a\r\nb".toList := by
  refine ⟨rfl, by decide, by decide, by decide, ?_, by decide⟩
  rw [patch_notes_js_target RiseReveal.crlfCex "a\r\nb".toList rfl rfl]
  rw [show univNewlines "a\r\nb".toList = "a\nb".toList from rfl]
  rw [notesJsTransform_id _ (by decide) (by decide) (by decide)]

/-- C4 amended: the write itself performs no newline translation - the
target receives exactly the transformed in-memory text - but the read of
the backup applies universal-newline translation (CRLF and lone CR become
LF).  Hence for backups containing no carriage return, the text is read
byte-identically and every byte untouched by the transformation (in
particular the whole backup, when it contains none of the tokens) appears
unchanged in the target. -/
theorem claim_C4_amended :
    (∀ c : Text, ¬ '\r' ∈ c → univNewlines c = c) ∧
    (∀ (fs : RiseReveal.RFS) (c : Text), fs.node_modules = true →
      fs.notes_js_bak = some c →
      (RiseReveal.patch_notes fs).1.notes_js = some (notesJsTransform (univNewlines c))) ∧
    (∀ (fs : RiseReveal.RFS) (c : Text), fs.node_modules = true →
      fs.reveal_css_up = some c →
      (RiseReveal.patch_reveal_css fs).1.reveal_css =
        some (commentOutLine11 (univNewlines c))) ∧
    (∀ (fs : RiseReveal.RFS) (c : Text), fs.node_modules = true →
      fs.notes_js_bak = some c → ¬ '\r' ∈ c →
      containsTok tokSrc c = false → containsTok tokKeyCode c = false →
      containsTok tokKeyS c = false →
      (RiseReveal.patch_notes fs).1.notes_js = some c) := by
  refine ⟨univNewlines_no_cr, patch_notes_js_target, patch_css_target, ?_⟩
  intro fs c hnm hb hcr h1 h2 h3
  rw [patch_notes_js_target fs c hnm hb, univNewlines_no_cr c hcr,
    notesJsTransform_id c h1 h2 h3]

/-- Witness for C4 amended at a concrete state. -/
theorem claim_C4_amended_witness :
    (RiseReveal.patch_notes
      ⟨true, true, none, none, some [], some "ab".toList, some [], some [], [], [],
        none, none⟩).1.notes_js = some "ab".toList :=
  claim_C4_amended.2.2.2
    ⟨true, true, none, none, some [], some "ab".toList, some [], some [], [], [], none, none⟩
    "ab".toList rfl rfl (by decide) (by decide) (by decide) (by decide)

/-! ## Line counting (claims C6 and C8) -/

theorem breakCount_append_no_cr (A : List Char) (hA : ¬ '\r' ∈ A) :
    ∀ X, breakCount (A ++ X) = breakCount A + breakCount X := by
  induction A with
  | nil => intro X; simp [breakCount]
  | cons a A ih =>
    intro X
    have ha : ¬ a = '\r' := fun h => hA (h ▸ List.mem_cons_self _ _)
    have hA' : ¬ '\r' ∈ A := fun h => hA (List.mem_cons_of_mem _ h)
    rw [List.cons_append, breakCount.eq_def]
    conv_rhs => rw [breakCount.eq_def]
    simp only [ha, if_false]
    by_cases hb : isLineBreak a = true
    · simp only [hb, if_true, ih hA' X]
      omega
    · simp only [hb, if_false, Bool.false_eq_true, ih hA' X]

theorem pySplitlines_head (c : Char) (t : List Char) :
    ∃ l ls, pySplitlines (c :: t) = l :: ls ∧ l.head? = some c := by
  rw [pySplitlines.eq_def]
  by_cases hc : c = '\r'
  · subst hc
    cases t with
    | nil => exact ⟨['\r'], [], by simp, rfl⟩
    | cons c' t' =>
      by_cases hc' : c' = '\n'
      · subst hc'
        exact ⟨['\r', '\n'], pySplitlines t', by simp, rfl⟩
      · refine ⟨['\r'], pySplitlines (c' :: t'), ?_, rfl⟩
        simp only [if_pos rfl]
        cases hc'' : c' <;> simp_all
  · simp only [hc, if_false]
    by_cases hb : isLineBreak c = true
    · exact ⟨[c], pySplitlines t, by simp [hb], rfl⟩
    · simp only [hb, Bool.false_eq_true, if_false]
      rcases hps : pySplitlines t with _ | ⟨l, ls⟩
      · exact ⟨[c], [], by simp, rfl⟩
      · exact ⟨c :: l, ls, by simp, rfl⟩

theorem pySplitlines_ne_nil (c : Char) (t : List Char) : pySplitlines (c :: t) ≠ [] := by
  obtain ⟨l, ls, heq, _⟩ := pySplitlines_head c t
  rw [heq]
  simp

theorem endsWithBreak_cons (c : Char) (t : List Char) (h : t ≠ []) :
    endsWithBreak (c :: t) = endsWithBreak t := by
  cases t with
  | nil => exact absurd rfl h
  | cons d t' =>
    rw [endsWithBreak, endsWithBreak, List.getLast?_cons]
    rcases hgl : (d :: t').getLast? with _ | x
    · exact absurd hgl (by simp)
    · simp [hgl]

theorem pySplitlines_crlf (t : List Char) :
    pySplitlines ('\r' :: '\n' :: t) = ['\r', '\n'] :: pySplitlines t := rfl

theorem pySplitlines_cr_nil : pySplitlines ['\r'] = [['\r']] := rfl

theorem pySplitlines_cr (c : Char) (t : List Char) (hc : ¬ c = '\n') :
    pySplitlines ('\r' :: c :: t) = ['\r'] :: pySplitlines (c :: t) := by
  rw [pySplitlines.eq_def]
  simp only [if_pos rfl]
  cases hcc : c <;> simp_all

theorem pySplitlines_brk (c : Char) (t : List Char) (hc : ¬ c = '\r')
    (hb : isLineBreak c = true) : pySplitlines (c :: t) = [c] :: pySplitlines t := by
  rw [pySplitlines.eq_def]
  simp only [hc, if_false, hb, if_true]

theorem pySplitlines_chr_nil (c : Char) (t : List Char) (hc : ¬ c = '\r')
    (hb : ¬ isLineBreak c = true) (hps : pySplitlines t = []) :
    pySplitlines (c :: t) = [[c]] := by
  rw [pySplitlines.eq_def]
  simp only [hc, if_false, hb, Bool.false_eq_true, if_false, hps]

theorem pySplitlines_chr (c : Char) (t : List Char) (hc : ¬ c = '\r')
    (hb : ¬ isLineBreak c = true) (l : List Char) (ls : List (List Char))
    (hps : pySplitlines t = l :: ls) :
    pySplitlines (c :: t) = (c :: l) :: ls := by
  rw [pySplitlines.eq_def]
  simp only [hc, if_false, hb, Bool.false_eq_true, if_false, hps]

theorem breakCount_crlf (t : List Char) :
    breakCount ('\r' :: '\n' :: t) = 1 + breakCount t := rfl

theorem breakCount_cr_nil : breakCount ['\r'] = 1 := rfl

theorem breakCount_cr (c : Char) (t : List Char) (hc : ¬ c = '\n') :
    breakCount ('\r' :: c :: t) = 1 + breakCount (c :: t) := by
  rw [breakCount.eq_def]
  simp only [if_pos rfl]
  cases hcc : c <;> simp_all

theorem breakCount_brk (c : Char) (t : List Char) (hc : ¬ c = '\r')
    (hb : isLineBreak c = true) : breakCount (c :: t) = 1 + breakCount t := by
  rw [breakCount.eq_def]
  simp only [hc, if_false, hb, if_true]

theorem breakCount_chr (c : Char) (t : List Char) (hc : ¬ c = '\r')
    (hb : ¬ isLineBreak c = true) : breakCount (c :: t) = breakCount t := by
  rw [breakCount.eq_def]
  simp only [hc, if_false, hb, Bool.false_eq_true, if_false]

theorem lineCount_eq (t : List Char) :
    lineCount t = breakCount t +
      (if t = [] then 0 else if endsWithBreak t = true then 0 else 1) := by
  induction t using pySplitlines.induct with
  | case1 => rfl
  | case2 t' ih =>
    rw [lineCount, pySplitlines_crlf, breakCount_crlf, List.length_cons]
    rw [lineCount] at ih
    cases t' with
    | nil => rfl
    | cons d t'' =>
      rw [endsWithBreak_cons '\r' ('\n' :: d :: t'') (by simp),
          endsWithBreak_cons '\n' (d :: t'') (by simp)]
      simp only [List.cons_ne_nil, if_false] at ih ⊢
      omega
  | case3 => rfl
  | case4 c' t' hne ih =>
    have hne' : ¬ c' = '\n' := fun h => hne h
    rw [lineCount, pySplitlines_cr c' t' hne', breakCount_cr c' t' hne', List.length_cons]
    rw [lineCount] at ih
    rw [endsWithBreak_cons '\r' (c' :: t') (by simp)]
    simp only [List.cons_ne_nil, if_false] at ih ⊢
    omega
  | case5 c t hc hb ih =>
    rw [lineCount, pySplitlines_brk c t hc hb, breakCount_brk c t hc hb, List.length_cons]
    rw [lineCount] at ih
    cases t with
    | nil =>
      simp only [List.cons_ne_nil, if_false]
      rw [show pySplitlines [] = [] from rfl]
      simp [endsWithBreak, hb, breakCount]
    | cons d t' =>
      rw [endsWithBreak_cons c (d :: t') (by simp)]
      simp only [List.cons_ne_nil, if_false] at ih ⊢
      omega
  | case6 c t hc hb hps ih =>
    have ht : t = [] := by
      cases t with
      | nil => rfl
      | cons d t' => exact absurd hps (pySplitlines_ne_nil d t')
    subst ht
    rw [lineCount, pySplitlines_chr_nil c [] hc hb hps, breakCount_chr c [] hc hb]
    simp [endsWithBreak, hb, breakCount]
  | case7 c t hc hb l ls hps ih =>
    have ht : t ≠ [] := by
      intro hcontra
      subst hcontra
      simp [pySplitlines] at hps
    rw [lineCount, pySplitlines_chr c t hc hb l ls hps, breakCount_chr c t hc hb,
      List.length_cons]
    rw [lineCount, hps, List.length_cons] at ih
    rw [endsWithBreak_cons c t ht]
    simp only [List.cons_ne_nil, if_false]
    simp only [ht, if_false] at ih
    omega

theorem reSub_match (repl : Text) (flag : Bool) (t : List Char)
    (h : (flag && themePat.isPrefixOf t) = true) :
    reSubBody repl flag t = repl ++ reSubBody repl false (t.drop themePat.length) := by
  rw [reSubBody.eq_def]
  simp only [h, if_true]

theorem reSub_nil (repl : Text) (flag : Bool) : reSubBody repl flag [] = [] := by
  rw [reSubBody.eq_def]
  simp [themePat]

theorem reSub_keep (repl : Text) (flag : Bool) (c : Char) (t : List Char)
    (h : (flag && themePat.isPrefixOf (c :: t)) = false) :
    reSubBody repl flag (c :: t) = c :: reSubBody repl (c == '\n') t := by
  rw [reSubBody.eq_def]
  simp only [h, Bool.false_eq_true, if_false]

theorem countLS_match (flag : Bool) (t : List Char)
    (h : (flag && themePat.isPrefixOf t) = true) :
    countLS flag t = 1 + countLS false (t.drop themePat.length) := by
  rw [countLS.eq_def]
  simp only [h, if_true]

theorem countLS_nil (flag : Bool) : countLS flag [] = 0 := by
  rw [countLS.eq_def]
  simp [themePat]

theorem countLS_keep (flag : Bool) (c : Char) (t : List Char)
    (h : (flag && themePat.isPrefixOf (c :: t)) = false) :
    countLS flag (c :: t) = countLS (c == '\n') t := by
  rw [countLS.eq_def]
  simp only [h, Bool.false_eq_true, if_false]


theorem endsWithBreak_append (A B : List Char) (h : B ≠ []) :
    endsWithBreak (A ++ B) = endsWithBreak B := by
  induction A with
  | nil => rfl
  | cons a A ih =>
    rw [List.cons_append, endsWithBreak_cons a (A ++ B) (by simp [h]), ih]

theorem reSub_ne_nil (flag : Bool) (c : Char) (t : List Char) :
    reSubBody themeRepl flag (c :: t) ≠ [] := by
  by_cases hm : (flag && themePat.isPrefixOf (c :: t)) = true
  · rw [reSub_match _ _ _ hm]
    intro hcontra
    have hlen := congrArg List.length hcontra
    rw [List.length_append] at hlen
    simp only [List.length_nil] at hlen
    have h1 : themeRepl.length ≠ 0 := by decide
    omega
  · rw [reSub_keep _ _ _ _ (Bool.eq_false_iff.mpr hm)]
    simp

theorem reSub_last : ∀ (flag : Bool) (t : List Char),
    endsWithBreak (reSubBody themeRepl flag t) = endsWithBreak t := by
  intro flag t
  induction flag, t using reSubBody.induct themeRepl with
  | case1 atStart t hm ih =>
    rw [reSub_match _ _ _ hm]
    have hm2 := hm
    rw [Bool.and_eq_true] at hm2
    obtain ⟨rest, hrest⟩ := List.isPrefixOf_iff_prefix.mp hm2.2
    have hdrop : t.drop themePat.length = rest := by
      rw [← hrest, List.drop_left]
    rw [hdrop] at ih ⊢
    cases rest with
    | nil =>
      rw [reSub_nil, List.append_nil, ← hrest, List.append_nil]
      decide
    | cons r0 rest' =>
      rw [endsWithBreak_append themeRepl _ (reSub_ne_nil false r0 rest'), ih, ← hrest,
        endsWithBreak_append themePat _ (by simp)]
  | case2 atStart h =>
    rw [reSub_nil]
  | case3 atStart c t hm ih =>
    rw [reSub_keep _ _ _ _ (Bool.eq_false_iff.mpr hm)]
    cases t with
    | nil =>
      rw [reSub_nil]
    | cons d t' =>
      rw [endsWithBreak_cons c _ (reSub_ne_nil (c == '\n') d t'), ih,
        endsWithBreak_cons c (d :: t') (by simp)]

theorem reSub_id : ∀ (flag : Bool) (t : List Char), countLS flag t = 0 →
    reSubBody themeRepl flag t = t := by
  intro flag t
  induction flag, t using reSubBody.induct themeRepl with
  | case1 atStart t hm ih =>
    intro h
    rw [countLS_match _ _ hm] at h
    omega
  | case2 atStart h =>
    intro _
    rw [reSub_nil]
  | case3 atStart c t hm ih =>
    intro h
    rw [countLS_keep _ _ _ (Bool.eq_false_iff.mpr hm)] at h
    rw [reSub_keep _ _ _ _ (Bool.eq_false_iff.mpr hm), ih h]

theorem reSub_breakCount : ∀ (flag : Bool) (t : List Char),
    breakCount (reSubBody themeRepl flag t) = breakCount t + 2 * countLS flag t := by
  intro flag t
  induction flag, t using reSubBody.induct themeRepl with
  | case1 atStart t hm ih =>
    rw [reSub_match _ _ _ hm, countLS_match _ _ hm]
    have hm2 := hm
    rw [Bool.and_eq_true] at hm2
    obtain ⟨rest, hrest⟩ := List.isPrefixOf_iff_prefix.mp hm2.2
    have hdrop : t.drop themePat.length = rest := by
      rw [← hrest, List.drop_left]
    rw [hdrop] at ih ⊢
    rw [breakCount_append_no_cr themeRepl (by decide), ih, ← hrest,
      breakCount_append_no_cr themePat (by decide)]
    have h1 : breakCount themeRepl = 2 := by decide
    have h2 : breakCount themePat = 0 := by decide
    rw [h1, h2]
    omega
  | case2 atStart h =>
    rw [reSub_nil, countLS_nil]
    omega
  | case3 atStart c t hm ih =>
    have hmf := Bool.eq_false_iff.mpr hm
    rw [reSub_keep _ _ _ _ hmf, countLS_keep _ _ _ hmf]
    by_cases hc : c = '\r'
    · subst hc
      have hflag : (('\r' : Char) == '\n') = false := by decide
      rw [hflag] at ih ⊢
      cases t with
      | nil =>
        rw [reSub_nil, countLS_nil]
        omega
      | cons d t' =>
        have hffd : ((false : Bool) && themePat.isPrefixOf (d :: t')) = false := by
          simp
        rw [reSub_keep _ _ _ _ hffd, countLS_keep _ _ _ hffd]
        rw [reSub_keep _ _ _ _ hffd, countLS_keep _ _ _ hffd] at ih
        by_cases hd : d = '\n'
        · subst hd
          have hdf : (('\n' : Char) == '\n') = true := by decide
          rw [hdf] at ih ⊢
          rw [breakCount_crlf, breakCount_crlf]
          have hb : isLineBreak '\n' = true := by decide
          have hc2 : ¬ ('\n' : Char) = '\r' := by decide
          rw [breakCount_brk '\n' _ hc2 hb, breakCount_brk '\n' t' hc2 hb] at ih
          omega
        · rw [breakCount_cr d _ hd, breakCount_cr d _ hd]
          omega
    · by_cases hb : isLineBreak c = true
      · rw [breakCount_brk c _ hc hb, breakCount_brk c t hc hb]
        omega
      · rw [breakCount_chr c _ hc hb, breakCount_chr c t hc hb]
        exact ih

theorem hasLSOcc_nil (flag : Bool) : hasLSOcc flag [] = false := rfl

theorem hasLSOcc_cons (flag : Bool) (c : Char) (t : List Char) :
    hasLSOcc flag (c :: t) =
      ((flag && themePat.isPrefixOf (c :: t)) || hasLSOcc (c == '\n') t) := rfl

theorem lastFlag_ne_nil (f1 f2 : Bool) : ∀ (l : List Char), l ≠ [] →
    lastFlag f1 l = lastFlag f2 l := by
  intro l
  induction l with
  | nil => intro h; exact absurd rfl h
  | cons a l ih =>
    intro _
    cases l with
    | nil => rfl
    | cons b l' =>
      show lastFlag f1 (b :: l') = lastFlag f2 (b :: l')
      exact ih (by simp)

theorem hasLSOcc_append (A : List Char)
    (hA : ∀ i, i < A.length → (themePat.take (A.length - i)).isPrefixOf (A.drop i) = false) :
    ∀ (flag : Bool) (X : List Char), hasLSOcc flag (A ++ X) = hasLSOcc (lastFlag flag A) X := by
  induction A with
  | nil => intro flag X; rfl
  | cons a A ih =>
    intro flag X
    have h0 := hA 0 (by simp)
    simp only [Nat.sub_zero, List.drop_zero] at h0
    have hp : themePat.isPrefixOf ((a :: A) ++ X) = false := by
      cases hb : themePat.isPrefixOf ((a :: A) ++ X)
      · rfl
      · have hcontr := isPrefixOf_take_of_append themePat (a :: A) X hb
        rw [h0] at hcontr
        simp at hcontr
    rw [List.cons_append, hasLSOcc_cons, ← List.cons_append, hp, Bool.and_false,
      Bool.false_or]
    have hA' : ∀ i, i < A.length →
        (themePat.take (A.length - i)).isPrefixOf (A.drop i) = false := by
      intro i hi
      have := hA (i + 1) (by simp only [List.length_cons]; omega)
      simpa using this
    rw [ih hA' (a == '\n') X]
    cases A with
    | nil => rfl
    | cons b A' =>
      rw [lastFlag_ne_nil (a == '\n') flag (b :: A') (by simp)]
      rfl

theorem reSub_pref : ∀ (flag : Bool) (t : List Char), ∀ δ : List Char,
    δ.isPrefixOf (reSubBody themeRepl flag t) = true →
    δ.isPrefixOf t = true ∨
      ∃ α β, δ = α ++ β ∧ β ≠ [] ∧
        (β.isPrefixOf themeRepl = true ∨ themeRepl.isPrefixOf β = true) := by
  intro flag t
  induction flag, t using reSubBody.induct themeRepl with
  | case1 atStart t hm ih =>
    intro δ h
    rw [reSub_match _ _ _ hm] at h
    cases δ with
    | nil => exact Or.inl (nil_isPrefixOf _)
    | cons d δ' =>
      rcases prefix_split_append _ themeRepl _ h with h' | h'
      · exact Or.inr ⟨[], d :: δ', rfl, by simp, Or.inl h'⟩
      · exact Or.inr ⟨[], d :: δ', rfl, by simp, Or.inr h'⟩
  | case2 atStart hcond =>
    intro δ h
    rw [reSub_nil] at h
    exact Or.inl h
  | case3 atStart c t hm ih =>
    intro δ h
    rw [reSub_keep _ _ _ _ (Bool.eq_false_iff.mpr hm)] at h
    cases δ with
    | nil => exact Or.inl (nil_isPrefixOf _)
    | cons d δ' =>
      simp only [List.isPrefixOf, Bool.and_eq_true] at h
      cases hδ' : δ' with
      | nil =>
        subst hδ'
        refine Or.inl ?_
        simp only [List.isPrefixOf, Bool.and_eq_true]
        exact ⟨h.1, trivial⟩
      | cons e δ'' =>
        subst hδ'
        rcases ih (e :: δ'') h.2 with h' | ⟨α, β, heq, hβ, hor⟩
        · refine Or.inl ?_
          simp only [List.isPrefixOf, Bool.and_eq_true]
          exact ⟨h.1, h'⟩
        · exact Or.inr ⟨d :: α, β, by rw [heq]; rfl, hβ, hor⟩

theorem reSub_no_ls : ∀ (flag : Bool) (t : List Char),
    hasLSOcc flag (reSubBody themeRepl flag t) = false := by
  intro flag t
  induction flag, t using reSubBody.induct themeRepl with
  | case1 atStart t hm ih =>
    have hm2 := hm
    rw [Bool.and_eq_true] at hm2
    rw [reSub_match _ _ _ hm, hm2.1,
      hasLSOcc_append themeRepl (by decide) true _,
      show lastFlag true themeRepl = false from by decide]
    exact ih
  | case2 atStart hcond =>
    rw [reSub_nil, hasLSOcc_nil]
  | case3 atStart c t hm ih =>
    rw [reSub_keep _ _ _ _ (Bool.eq_false_iff.mpr hm), hasLSOcc_cons, ih, Bool.or_false]
    cases hflag : atStart with
    | false => rfl
    | true =>
      rw [hflag] at hm
      rw [Bool.true_and]
      have hpat : themePat = 'b' :: "ody \x7b".toList := by decide
      cases hb : themePat.isPrefixOf (c :: reSubBody themeRepl (c == '\n') t)
      · rfl
      · exfalso
        rw [hpat] at hb
        simp only [List.isPrefixOf, Bool.and_eq_true] at hb
        rcases reSub_pref (c == '\n') t _ hb.2 with h' | ⟨α, β, heq, hβ, hor⟩
        · apply hm
          rw [Bool.true_and, hpat]
          simp only [List.isPrefixOf, Bool.and_eq_true]
          exact ⟨hb.1, h'⟩
        · have hdec : ∀ β ∈ ("ody \x7b".toList).tails, β ≠ [] →
              β.isPrefixOf themeRepl = false ∧ themeRepl.isPrefixOf β = false := by decide
          have hβtail : β ∈ ("ody \x7b".toList).tails := heq ▸ suffix_mem_tails α β
          have := hdec β hβtail hβ
          rcases hor with h' | h'
          · rw [this.1] at h'
            exact absurd h' (by simp)
          · rw [this.2] at h'
            exact absurd h' (by simp)

/-- C8: for every theme text, `patch_reveal_themes`' substitution changes
the line count by (number of line-start matches of `'body {'`) x (lines of
the replacement block - 1); the output has no line-start occurrence of
`'body {'` left; and a text with no line-start match (even one containing
`'body {'` elsewhere) is returned byte-identically, so only line-start
occurrences are replaced. -/
theorem claim_C8_themes (t : Text) :
    lineCount (revealThemesTransform t) =
      lineCount t + countLS true t * (lineCount themeRepl - 1) ∧
    hasLSOcc true (revealThemesTransform t) = false ∧
    (countLS true t = 0 → revealThemesTransform t = t) := by
  refine ⟨?_, reSub_no_ls true t, reSub_id true t⟩
  have h3 : lineCount themeRepl = 3 := by decide
  rw [h3]
  rw [revealThemesTransform, lineCount_eq (reSubBody themeRepl true t), lineCount_eq t,
    reSub_breakCount true t]
  cases t with
  | nil =>
    rw [reSub_nil, countLS_nil]
    simp
  | cons c t' =>
    have hnn := reSub_ne_nil true c t'
    rw [reSub_last true (c :: t'), if_neg hnn]
    simp only [List.cons_ne_nil, if_false]
    omega

/-- Witness for C8 at a concrete text whose `'body {'` occurrence is not at
a line start. -/
theorem claim_C8_themes_witness :
    revealThemesTransform "x body \x7b\n".toList = "x body \x7b\n".toList :=
  (claim_C8_themes "x body \x7b\n".toList).2.2 (by simp [countLS, themePat])

/-! ## Structure of `pySplitlines` and `commentLoop` (claim C6) -/

theorem pySplitlines_nobreak : ∀ (l : List Char), l ≠ [] →
    (∀ c ∈ l, isLineBreak c = false) → pySplitlines l = [l] := by
  intro l
  induction l with
  | nil => intro h; exact absurd rfl h
  | cons c l ih =>
    intro _ hnb
    have hcb : isLineBreak c = false := hnb c (List.mem_cons_self _ _)
    have hcr : ¬ c = '\r' := by
      intro h
      rw [h] at hcb
      simp [isLineBreak] at hcb
    cases l with
    | nil => exact pySplitlines_chr_nil c [] hcr (by simp [hcb]) rfl
    | cons d l' =>
      have hps : pySplitlines (d :: l') = [d :: l'] :=
        ih (by simp) (fun x hx => hnb x (List.mem_cons_of_mem c hx))
      exact pySplitlines_chr c (d :: l') hcr (by simp [hcb]) (d :: l') [] hps

theorem pySplitlines_prepend : ∀ (b : List Char), (∀ c ∈ b, isLineBreak c = false) →
    ∀ (X l : List Char) (ls : List (List Char)), pySplitlines X = l :: ls →
    pySplitlines (b ++ X) = (b ++ l) :: ls := by
  intro b
  induction b with
  | nil =>
    intro _ X l ls h
    simpa using h
  | cons a b ih =>
    intro hnb X l ls h
    have hab : isLineBreak a = false := hnb a (List.mem_cons_self _ _)
    have hacr : ¬ a = '\r' := by
      intro hcontra
      rw [hcontra] at hab
      simp [isLineBreak] at hab
    have hrec := ih (fun x hx => hnb x (List.mem_cons_of_mem a hx)) X l ls h
    rw [List.cons_append,
      pySplitlines_chr a (b ++ X) hacr (by simp [hab]) (b ++ l) ls hrec]
    rfl

theorem LinesWF_ne_nil {ls : List (List Char)} (h : LinesWF ls) :
    ∀ l ∈ ls, l ≠ [] := by
  induction h with
  | nil => intro l hl; simp at hl
  | final l hne hnb =>
    intro x hx
    rw [List.mem_singleton] at hx
    rw [hx]
    exact hne
  | cons b term ls hnb hterm hnext hwf ih =>
    intro x hx
    rcases List.mem_cons.mp hx with hx | hx
    · rw [hx]
      rcases hterm with ht | ⟨c, _, ht⟩ <;> rw [ht] <;> simp
    · exact ih x hx

theorem LinesWF_cons_inv {l : List Char} {ls : List (List Char)} (h : LinesWF (l :: ls)) :
    (ls = [] ∧ l ≠ [] ∧ (∀ c ∈ l, isLineBreak c = false)) ∨
    (∃ b term, l = b ++ term ∧ (∀ c ∈ b, isLineBreak c = false) ∧
      (term = ['\r', '\n'] ∨ ∃ c, isLineBreak c = true ∧ term = [c]) ∧
      (term = ['\r'] → firstCharNotLF ls) ∧ LinesWF ls) := by
  cases h with
  | final _ hne hnb => exact Or.inl ⟨rfl, hne, hnb⟩
  | cons b term ls hnb hterm hnext hwf => exact Or.inr ⟨b, term, rfl, hnb, hterm, hnext, hwf⟩

theorem pySplitlines_wf : ∀ t : List Char, LinesWF (pySplitlines t) := by
  intro t
  induction t using pySplitlines.induct with
  | case1 => exact LinesWF.nil
  | case2 t' ih =>
    rw [pySplitlines_crlf]
    have := LinesWF.cons [] ['\r', '\n'] (pySplitlines t') (by simp)
      (Or.inl rfl) (by intro h; simp at h) ih
    simpa using this
  | case3 =>
    rw [pySplitlines_cr_nil]
    have := LinesWF.cons [] ['\r'] [] (by simp)
      (Or.inr ⟨'\r', by decide, rfl⟩) (fun _ => trivial) LinesWF.nil
    simpa using this
  | case4 c' t' hne ih =>
    have hne' : ¬ c' = '\n' := fun h => hne h
    rw [pySplitlines_cr c' t' hne']
    have hhead : firstCharNotLF (pySplitlines (c' :: t')) := by
      obtain ⟨l, ls, heq, hhd⟩ := pySplitlines_head c' t'
      rw [heq]
      show l.head? ≠ some '\n'
      rw [hhd]
      intro hcontra
      exact hne' (by injection hcontra)
    have := LinesWF.cons [] ['\r'] (pySplitlines (c' :: t')) (by simp)
      (Or.inr ⟨'\r', by decide, rfl⟩) (fun _ => hhead) ih
    simpa using this
  | case5 c t hc hb ih =>
    rw [pySplitlines_brk c t hc hb]
    have := LinesWF.cons [] [c] (pySplitlines t) (by simp)
      (Or.inr ⟨c, hb, rfl⟩) ?_ ih
    · simpa using this
    · intro h
      have : c = '\r' := by injection h
      exact absurd this hc
  | case6 c t hc hb hps ih =>
    rw [pySplitlines_chr_nil c t hc hb hps]
    refine LinesWF.final [c] (by simp) ?_
    intro x hx
    rw [List.mem_singleton] at hx
    subst hx
    cases hbx : isLineBreak x
    · rfl
    · exact absurd hbx hb
  | case7 c t hc hb l ls hps ih =>
    rw [pySplitlines_chr c t hc hb l ls hps]
    rw [hps] at ih
    have hcb : isLineBreak c = false := by
      cases hbx : isLineBreak c
      · rfl
      · exact absurd hbx hb
    rcases LinesWF_cons_inv ih with ⟨hnil, hne, hnb⟩ | ⟨b, term, hleq, hnb, hterm, hnext, hwf⟩
    · subst hnil
      refine LinesWF.final (c :: l) (by simp) ?_
      intro x hx
      rcases List.mem_cons.mp hx with hx | hx
      · rw [hx]
        exact hcb
      · exact hnb x hx
    · subst hleq
      have hsplit : c :: (b ++ term) = (c :: b) ++ term := rfl
      rw [hsplit]
      refine LinesWF.cons (c :: b) term ls ?_ hterm hnext hwf
      intro x hx
      rcases List.mem_cons.mp hx with hx | hx
      · rw [hx]
        exact hcb
      · exact hnb x hx

theorem pySplitlines_term_start (term : List Char) (X : List Char)
    (hterm : term = ['\r', '\n'] ∨ ∃ c, isLineBreak c = true ∧ term = [c])
    (hnext : term = ['\r'] → X.head? ≠ some '\n') :
    pySplitlines (term ++ X) = term :: pySplitlines X := by
  rcases hterm with ht | ⟨c, hb, ht⟩
  · subst ht
    exact pySplitlines_crlf X
  · subst ht
    by_cases hcr : c = '\r'
    · subst hcr
      cases X with
      | nil => rfl
      | cons x X' =>
        have hx : ¬ x = '\n' := by
          intro hcontra
          exact (hnext rfl) (by rw [hcontra]; rfl)
        exact pySplitlines_cr x X' hx
    · exact pySplitlines_brk c X hcr hb

theorem pySplitlines_term_line (b term X : List Char)
    (hnb : ∀ c ∈ b, isLineBreak c = false)
    (hterm : term = ['\r', '\n'] ∨ ∃ c, isLineBreak c = true ∧ term = [c])
    (hnext : term = ['\r'] → X.head? ≠ some '\n') :
    pySplitlines (b ++ (term ++ X)) = (b ++ term) :: pySplitlines X :=
  pySplitlines_prepend b hnb (term ++ X) term (pySplitlines X)
    (pySplitlines_term_start term X hterm hnext)

theorem head?_append_ne_nil (A B : List Char) (h : A ≠ []) :
    (A ++ B).head? = A.head? := by
  cases A with
  | nil => exact absurd rfl h
  | cons a A' => rfl

theorem commentLoop_head {ls : List (List Char)} (hwf : LinesWF ls)
    (hfst : firstCharNotLF ls) (i : Nat) : (commentLoop i ls).head? ≠ some '\n' := by
  cases ls with
  | nil => simp [commentLoop]
  | cons l ls' =>
    have hne : l ≠ [] := LinesWF_ne_nil hwf l (List.mem_cons_self _ _)
    show ((if i = 11 then '/' :: '*' :: l else l) ++ commentLoop (i + 1) ls').head? ≠ some '\n'
    by_cases hi : i = 11
    · rw [if_pos hi, head?_append_ne_nil _ _ (by simp)]
      intro hcontra
      simp at hcontra
    · rw [if_neg hi, head?_append_ne_nil _ _ hne]
      cases l with
      | nil => exact absurd rfl hne
      | cons x l' =>
        show some x ≠ some '\n'
        exact hfst

theorem pySplitlines_commentLoop {ls : List (List Char)} (hwf : LinesWF ls) :
    ∀ i : Nat, pySplitlines (commentLoop i ls) = markFrom i ls := by
  induction hwf with
  | nil => intro i; rfl
  | final l hne hnb =>
    intro i
    show pySplitlines ((if i = 11 then '/' :: '*' :: l else l) ++ commentLoop (i + 1) []) =
      (if i = 11 then '/' :: '*' :: l else l) :: markFrom (i + 1) []
    rw [show commentLoop (i + 1) [] = [] from rfl, List.append_nil,
      show markFrom (i + 1) [] = [] from rfl]
    by_cases hi : i = 11
    · rw [if_pos hi]
      refine pySplitlines_nobreak _ (by simp) ?_
      intro x hx
      rcases List.mem_cons.mp hx with hx | hx
      · rw [hx]; decide
      · rcases List.mem_cons.mp hx with hx | hx
        · rw [hx]; decide
        · exact hnb x hx
    · rw [if_neg hi]
      exact pySplitlines_nobreak l hne hnb
  | cons b term ls hnb hterm hnext hwf ih =>
    intro i
    show pySplitlines ((if i = 11 then '/' :: '*' :: (b ++ term) else b ++ term) ++
        commentLoop (i + 1) ls) =
      (if i = 11 then '/' :: '*' :: (b ++ term) else b ++ term) :: markFrom (i + 1) ls
    have hnext' : term = ['\r'] → (commentLoop (i + 1) ls).head? ≠ some '\n' := by
      intro ht
      exact commentLoop_head hwf (hnext ht) (i + 1)
    by_cases hi : i = 11
    · rw [if_pos hi]
      have hassoc : ('/' :: '*' :: (b ++ term)) ++ commentLoop (i + 1) ls =
          ('/' :: '*' :: b) ++ (term ++ commentLoop (i + 1) ls) := by simp
      rw [hassoc, pySplitlines_term_line ('/' :: '*' :: b) term _ ?_ hterm hnext', ih (i + 1)]
      · rfl
      · intro x hx
        rcases List.mem_cons.mp hx with hx | hx
        · rw [hx]; decide
        · rcases List.mem_cons.mp hx with hx | hx
          · rw [hx]; decide
          · exact hnb x hx
    · rw [if_neg hi]
      have hassoc : (b ++ term) ++ commentLoop (i + 1) ls =
          b ++ (term ++ commentLoop (i + 1) ls) := by simp
      rw [hassoc, pySplitlines_term_line b term _ hnb hterm hnext', ih (i + 1)]

theorem markFrom_length : ∀ (i : Nat) (ls : List (List Char)),
    (markFrom i ls).length = ls.length := by
  intro i ls
  induction ls generalizing i with
  | nil => rfl
  | cons l ls ih =>
    show (markFrom i (l :: ls)).length = ls.length + 1
    rw [show markFrom i (l :: ls) =
      (if i = 11 then '/' :: '*' :: l else l) :: markFrom (i + 1) ls from rfl]
    rw [List.length_cons, ih (i + 1)]

theorem markFrom_getElem : ∀ (ls : List (List Char)) (i j : Nat),
    (markFrom i ls)[j]? =
      if i + j = 11 then (ls[j]?).map (fun l => '/' :: '*' :: l) else ls[j]? := by
  intro ls
  induction ls with
  | nil =>
    intro i j
    simp [markFrom]
  | cons l ls ih =>
    intro i j
    rw [show markFrom i (l :: ls) =
      (if i = 11 then '/' :: '*' :: l else l) :: markFrom (i + 1) ls from rfl]
    cases j with
    | zero =>
      rw [List.getElem?_cons_zero, List.getElem?_cons_zero]
      by_cases hi : i = 11
      · rw [if_pos hi, if_pos (by omega)]
        rfl
      · rw [if_neg hi, if_neg (by omega)]
    | succ jj =>
      rw [List.getElem?_cons_succ, List.getElem?_cons_succ, ih (i + 1) jj]
      by_cases hi : i + (jj + 1) = 11
      · rw [if_pos (by omega), if_pos hi]
      · rw [if_neg (by omega), if_neg hi]

/-- C6: `patch_reveal_css`' transformation preserves the number of lines of
any text; every line other than the 11th is byte-identical to the input
line; and when an 11th line exists, the output's 11th line is exactly `/*`
followed by the input's 11th line. -/
theorem claim_C6_comment_out (t : Text) :
    lineCount (commentOutLine11 t) = lineCount t ∧
    (∀ j, j ≠ 10 → (pySplitlines (commentOutLine11 t))[j]? = (pySplitlines t)[j]?) ∧
    (∀ l, (pySplitlines t)[10]? = some l →
      (pySplitlines (commentOutLine11 t))[10]? = some ('/' :: '*' :: l)) := by
  have hmain : pySplitlines (commentOutLine11 t) = markFrom 1 (pySplitlines t) := by
    rw [commentOutLine11]
    exact pySplitlines_commentLoop (pySplitlines_wf t) 1
  refine ⟨?_, ?_, ?_⟩
  · rw [lineCount, lineCount, hmain, markFrom_length]
  · intro j hj
    rw [hmain, markFrom_getElem, if_neg (by omega)]
  · intro l hl
    rw [hmain, markFrom_getElem, if_pos (by omega), hl]
    rfl

/-- Witness for C6 at a concrete 12-line text. -/
theorem claim_C6_comment_out_witness :
    (pySplitlines (commentOutLine11
        "1\n2\n3\n4\n5\n6\n7\n8\n9\n0\nX\nY".toList))[10]? = some "/*X\n".toList ∧
    (pySplitlines (commentOutLine11
        "1\n2\n3\n4\n5\n6\n7\n8\n9\n0\nX\nY".toList))[0]? = some "1\n".toList := by
  constructor
  · have h := (claim_C6_comment_out "1\n2\n3\n4\n5\n6\n7\n8\n9\n0\nX\nY".toList).2.2
      "X\n".toList (by decide)
    rw [h]
    decide
  · have h := (claim_C6_comment_out "1\n2\n3\n4\n5\n6\n7\n8\n9\n0\nX\nY".toList).2.1
      0 (by decide)
    rw [h]
    decide
